import Mathlib

/-!
# disvault: chunked content store over a blob backend

A shallow embedding of the Go sources `core/uploader.go`, `core/downloader.go`,
`core/deleter.go`, `db/db.go`, `app/bot.go` and `cmd/group.go`.

* The SQLite database is a record `DB` of three row lists (tables `groups`,
  `files`, `parts`) plus the two `AUTOINCREMENT` counters.  Every SQL statement
  of the sources is a function on `DB`.  Foreign keys are declared in the schema
  but are not enforced by the connection the program opens, so they are not
  checked here either; `PRIMARY KEY` and `UNIQUE` are checked where the sources
  insert.
* The Discord channel is a record `Discord` holding the messages of the channel.
  What the remote side decides on its own (the id it gives to a message, whether
  a call fails) is read from an environment `Env`.
* Local file system calls (temp directory, reading the input, writing the
  output) are taken to succeed; a read of a regular file returns
  `min(len(buffer), remaining)` bytes.
-/

namespace Disvault

/-! ## Data model (`db/db.go`) -/

abbrev Bytes := List UInt8

/-- Row of table `groups`. -/
structure GroupRow where
  group_id : Int
  group_name : String
  parent_group_id : Option Int
  deriving DecidableEq

/-- Metadata of a local file, `db.FilesLocal`. -/
structure FilesLocal where
  Name : String
  Total_parts : Int
  Size : Int
  Hash : String
  GroupID : Int
  deriving DecidableEq

/-- Row of table `files`, `db.FilesDB`: the key and the embedded `FilesLocal`. -/
structure FilesDB where
  ID : Int
  toLocal : FilesLocal
  deriving DecidableEq

/-- Row of table `parts`. -/
structure PartRow where
  part_id : String
  file_id : Int
  deriving DecidableEq

/-- Go struct `db.Parts`: the file id and the message ids collected so far. -/
structure Parts where
  FileID : Int
  Parts : List String
  deriving DecidableEq

/-- Database state: the three tables and the `sqlite_sequence` counters of the two
`AUTOINCREMENT` keys. -/
structure DB where
  groups : List GroupRow
  files : List FilesDB
  parts : List PartRow
  groupSeq : Int
  fileSeq : Int
  deriving DecidableEq

/-- Database with the three tables empty. -/
def emptyDB : DB := { groups := [], files := [], parts := [], groupSeq := 0, fileSeq := 0 }

/-- State after the statements of `Tables` ran on the empty database. -/
def initDB : DB :=
  { groups := [{ group_id := 1, group_name := "uncategorized", parent_group_id := none }],
    files := [], parts := [], groupSeq := 1, fileSeq := 0 }

/-- Largest key in a list of keys, at least `lo`. -/
def maxKey (lo : Int) : List Int → Int
  | [] => lo
  | k :: ks => max k (maxKey lo ks)

/-- Key given by `INTEGER PRIMARY KEY AUTOINCREMENT`: one more than the largest key
the table holds or ever held. -/
def nextKey (seq : Int) (keys : List Int) : Int := maxKey seq keys + 1

/-- The statements of `Tables`, which `InitDatabase` runs at the start of every
command: the tables are kept, and the group `uncategorized` is inserted unless a
group of that name exists. -/
def InitDatabase (db : DB) : DB :=
  if db.groups.any (fun g => g.group_name == "uncategorized") then db
  else
    let id := nextKey db.groupSeq (db.groups.map (·.group_id))
    let row : GroupRow := { group_id := id, group_name := "uncategorized", parent_group_id := none }
    { db with groups := db.groups ++ [row], groupSeq := id }

/-! ## Order of part ids

`part_id` is `TEXT`; `ORDER BY part_id` compares with the default `BINARY`
collation, the lexicographic order of the encoded text, which for UTF-8 is the
lexicographic order of the code points. -/

/-- Code points of a text value. -/
def idKey (s : String) : List Nat := s.data.map Char.toNat

/-- Lexicographic `≤` on code point lists. -/
def lexLe : List Nat → List Nat → Bool
  | [], _ => true
  | _ :: _, [] => false
  | a :: as, b :: bs => decide (a < b) || (decide (a = b) && lexLe as bs)

/-- Order `ORDER BY part_id` sorts by. -/
def idLe (a b : String) : Prop := lexLe (idKey a) (idKey b) = true

instance : DecidableRel idLe := fun a b => inferInstanceAs (Decidable (lexLe (idKey a) (idKey b) = true))

/-- Strict lexicographic order of part ids. -/
def idLt (a b : String) : Prop := idLe a b ∧ a ≠ b

instance : DecidableRel idLt := fun a b => inferInstanceAs (Decidable (idLe a b ∧ a ≠ b))

/-! ## Errors -/

/-- Errors the core functions return; each carries what the Go error text names. -/
inductive Err where
  | uploadChunk (chunkPath : String)
  | insertParts (partID : String)
  | downloadPart (partID : String)
  | deleteMessage (partID : String)
  deriving DecidableEq

/-! ## Blob backend (`app/bot.go`, Discord) -/

/-- Message of the channel: its id and its attachments (name, content). -/
structure Message where
  ID : String
  Attachments : List (String × Bytes)
  deriving DecidableEq

/-- State of the channel: its messages, oldest first, and how many send calls it
has received. -/
structure Discord where
  messages : List Message
  sent : Nat
  deriving DecidableEq

/-- What the outside decides. `issue n` is the id Discord gives to the message of
send call number `n`; the three predicates say which remote calls fail;
`sha256` is the digest; `tempDir` is the directory `os.MkdirTemp` returns. -/
structure Env where
  issue : Nat → String
  sendFails : Nat → Bool
  fetchFails : String → Bool
  deleteFails : String → Bool
  sha256 : Bytes → String
  tempDir : String

/-- `Session.ChannelMessageSendComplex` with one file. -/
def ChannelMessageSendComplex (env : Env) (name : String) (content : Bytes) (dc : Discord) :
    Discord × Option Message :=
  if env.sendFails dc.sent then
    ({ dc with sent := dc.sent + 1 }, none)
  else
    let msg : Message := { ID := env.issue dc.sent, Attachments := [(name, content)] }
    ({ messages := dc.messages ++ [msg], sent := dc.sent + 1 }, some msg)

/-- `app.UploadFile`: send the chunk file as one message and append the id of the
message to `partsStruct.Parts`. -/
def UploadFile (env : Env) (partName : String) (content : Bytes) (partsStruct : Parts)
    (dc : Discord) : Discord × Except Err (String × Parts) :=
  match ChannelMessageSendComplex env partName content dc with
  | (dc', none) => (dc', .error (.uploadChunk partName))
  | (dc', some msgSent) =>
    (dc', .ok (msgSent.ID, { partsStruct with Parts := partsStruct.Parts ++ [msgSent.ID] }))

/-- `app.DownloadPart`: look the message up, take its first attachment, fetch it. -/
def DownloadPart (env : Env) (dc : Discord) (partID : String) : Except Err Bytes :=
  if env.fetchFails partID then .error (.downloadPart partID)
  else
    match dc.messages.find? (fun m => m.ID == partID) with
    | none => .error (.downloadPart partID)
    | some msg =>
      match msg.Attachments with
      | [] => .error (.downloadPart partID)
      | (_, data) :: _ => .ok data

/-- `discord.ChannelMessageDelete`: fails when the remote call fails or the channel
has no such message. -/
def ChannelMessageDelete (env : Env) (dc : Discord) (partID : String) : Option Discord :=
  if env.deleteFails partID then none
  else if dc.messages.any (fun m => m.ID == partID) then
    some { dc with messages := dc.messages.filter (fun m => !(m.ID == partID)) }
  else none

/-! ## Statements of `db/db.go` -/

/-- `db.RegisterFileEntry`: `INSERT INTO files (...)`, returns `LastInsertId`. -/
def RegisterFileEntry (db : DB) (fileStructure : FilesLocal) : DB × Int :=
  let fileID := nextKey db.fileSeq (db.files.map (·.ID))
  ({ db with files := db.files ++ [{ ID := fileID, toLocal := fileStructure }], fileSeq := fileID },
    fileID)

/-- Loop of `InsertParts`: one `INSERT INTO parts` per id, each its own
commit; the first insert that hits the primary key stops the loop. -/
def insertPartsLoop (fileID : Int) : List String → DB → DB × Except Err Unit
  | [], db => (db, .ok ())
  | partID :: rest, db =>
    if db.parts.any (fun r => r.part_id == partID) then (db, .error (.insertParts partID))
    else insertPartsLoop fileID rest
      { db with parts := db.parts ++ [{ part_id := partID, file_id := fileID }] }

/-- `(*Parts).InsertParts`. -/
def InsertParts (db : DB) (data : Parts) : DB × Except Err Unit :=
  insertPartsLoop data.FileID data.Parts db

/-- `db.GetPartIDs`: `SELECT part_id FROM parts WHERE file_id = ? ORDER BY part_id`. -/
def GetPartIDs (db : DB) (fileID : Int) : List String :=
  List.insertionSort idLe ((db.parts.filter (fun r => r.file_id == fileID)).map (·.part_id))

/-- Statement `DELETE FROM parts WHERE part_id = ?`. -/
def deletePartRow (db : DB) (partID : String) : DB :=
  { db with parts := db.parts.filter (fun r => !(r.part_id == partID)) }

/-- Statement `DELETE FROM files WHERE id = ?`. -/
def deleteFileRow (db : DB) (fileID : Int) : DB :=
  { db with files := db.files.filter (fun f => !(f.ID == fileID)) }

/-! ## `core/uploader.go` -/

/-- Constant `chunkSize`, 25 MB. -/
def chunkSize : Nat := 25 * 1024 * 1024

/-- Number of binary digits of `n`; the first argument bounds the recursion. -/
def bitLenAux : Nat → Nat → Nat
  | 0, _ => 0
  | fuel + 1, n => if n = 0 then 0 else bitLenAux fuel (n / 2) + 1

/-- Number of binary digits of `n` (`0` for `0`). -/
def bitLen (n : Nat) : Nat := bitLenAux n n

/-- Integer nearest to `n / d`, ties to the even one. -/
def roundHalfEven (n d : Nat) : Nat :=
  let q := n / d
  let r := n % d
  if 2 * r < d then q else if d < 2 * r then q + 1 else if q % 2 = 0 then q else q + 1

/-- A finite non-negative `float64`: the value `man * 2 ^ exp`. -/
structure F64 where
  man : Nat
  exp : Int
  deriving DecidableEq

/-- Numerator of the value of a `float64` over `F64.den`. -/
def F64.num (x : F64) : Nat := x.man * 2 ^ x.exp.toNat

/-- Denominator of the value of a `float64`, a power of two. -/
def F64.den (x : F64) : Nat := 2 ^ (-x.exp).toNat

/-- The `float64` nearest to the rational `n / d` (`d > 0`), round to nearest, ties
to even, with a significand of 53 bits. The exponent range of binary64 is not
modelled: the quotients of `FilePartsCalc` stay far inside it. -/
def roundF64 (n d : Nat) : F64 :=
  if n = 0 then { man := 0, exp := 0 }
  else
    let L : Int := (bitLen n : Int) - (bitLen d : Int)
    let E : Int := if d * 2 ^ L.toNat ≤ n * 2 ^ (-L).toNat then L else L - 1
    let e : Int := E - 52
    { man := roundHalfEven (n * 2 ^ (-e).toNat) (d * 2 ^ e.toNat), exp := e }

/-- `FilePartsCalc`: `int(math.Ceil(float64(fileSize) / chunkSize))`. The
conversion to `float64` and the division each round to the nearest `float64`;
`math.Ceil` and the conversion back are exact. -/
def FilePartsCalc (fileSize : Int) : Int :=
  let x := roundF64 fileSize.natAbs 1
  let q := roundF64 x.num (x.den * chunkSize)
  if 0 ≤ fileSize then (((q.num + q.den - 1) / q.den : Nat) : Int)
  else -(((q.num / q.den : Nat)) : Int)

/-- Path of the temp file of chunk `i`: `filepath.Join(tempDir, "<name>.part<i>")`. -/
def chunkPath (env : Env) (name : String) (i : Nat) : String :=
  env.tempDir ++ "/" ++ name ++ ".part" ++ toString i

/-- The chunk loop of `Upload`. `rest` is what the file still holds after the read
position; one round reads up to `chunkSize` bytes, sends them, and stops after a
short read. The first argument bounds the number of rounds; `none` means the
bound was reached. -/
def chunkLoop (env : Env) (name : String) :
    Nat → Nat → Bytes → Parts → Discord → Option (Discord × Except Err Parts)
  | 0, _, _, _, _ => none
  | fuel + 1, i, rest, fileParts, dc =>
    let chunk := rest.take chunkSize
    let bytesRead := chunk.length
    if bytesRead = 0 then some (dc, .ok fileParts)
    else
      match UploadFile env (chunkPath env name i) chunk fileParts dc with
      | (dc1, .error e) => some (dc1, .error e)
      | (dc1, .ok (_, fileParts1)) =>
        if bytesRead < chunkSize then some (dc1, .ok fileParts1)
        else chunkLoop env name fuel (i + 1) (rest.drop chunkSize) fileParts1 dc1

/-- `core.Upload` of the file called `name` holding `content`. The rounds of the
chunk loop are bounded by `content.length + 1`, which the loop never reaches. -/
def Upload (env : Env) (db : DB) (dc : Discord) (name : String) (content : Bytes)
    (groupID : Int) : Option (DB × Discord × Except Err Unit) :=
  let fileToBeUploaded : FilesLocal :=
    { Name := name, Total_parts := FilePartsCalc content.length, Size := content.length,
      Hash := env.sha256 content, GroupID := groupID }
  let (db1, mainFileID) := RegisterFileEntry db fileToBeUploaded
  match chunkLoop env name (content.length + 1) 0 content { FileID := mainFileID, Parts := [] } dc with
  | none => none
  | some (dc1, .error e) => some (db1, dc1, .error e)
  | some (dc1, .ok fileParts) =>
    let (db2, r) := InsertParts db1 fileParts
    some (db2, dc1, r)

/-! ## `core/downloader.go` -/

/-- The loop of `DownloadAndReassembleFile`: `out` is what the output file holds. -/
def downloadLoop (env : Env) (dc : Discord) : List String → Bytes → Bytes × Except Err Unit
  | [], out => (out, .ok ())
  | partID :: rest, out =>
    match DownloadPart env dc partID with
    | .error _ => (out, .error (.downloadPart partID))
    | .ok partData => downloadLoop env dc rest (out ++ partData)

/-- `core.DownloadAndReassembleFile`: the content of the output file and the error. -/
def DownloadAndReassembleFile (env : Env) (db : DB) (dc : Discord) (fileID : Int) :
    Bytes × Except Err Unit :=
  downloadLoop env dc (GetPartIDs db fileID) []

/-! ## `core/deleter.go` -/

/-- What `DeleteFileParts` does to the outside, in the order it does it. -/
inductive Effect where
  | messageDeleted (partID : String)
  | partRowDeleted (partID : String)
  | fileRowDeleted (fileID : Int)
  deriving DecidableEq

/-- The loop of `DeleteFileParts`. -/
def deleteLoop (env : Env) : List String → DB → Discord → List Effect →
    DB × Discord × List Effect × Except Err Unit
  | [], db, dc, log => (db, dc, log, .ok ())
  | partID :: rest, db, dc, log =>
    match ChannelMessageDelete env dc partID with
    | none => (db, dc, log, .error (.deleteMessage partID))
    | some dc1 =>
      deleteLoop env rest (deletePartRow db partID) dc1
        (log ++ [.messageDeleted partID, .partRowDeleted partID])

/-- `core.DeleteFileParts`. -/
def DeleteFileParts (env : Env) (db : DB) (dc : Discord) (fileID : Int) :
    DB × Discord × List Effect × Except Err Unit :=
  match deleteLoop env (GetPartIDs db fileID) db dc [] with
  | (db1, dc1, log, .error e) => (db1, dc1, log, .error e)
  | (db1, dc1, log, .ok _) => (deleteFileRow db1 fileID, dc1, log ++ [.fileRowDeleted fileID], .ok ())

/-! ## `cmd/group.go` -/

/-- What a group command prints. -/
inductive GroupMsg where
  | created
  | alreadyExists
  | notFound (name : String)
  | deleted
  deriving DecidableEq

/-- `fetchGroupIDByName`: `SELECT group_id FROM groups WHERE group_name = ?`. -/
def fetchGroupIDByName (db : DB) (name : String) : Option Int :=
  (db.groups.find? (fun g => g.group_name == name)).map (·.group_id)

/-- `createGroup` with the flags `group` (here `name`) and `parentGroup`; an empty
`parentGroup` means the flag was not given. -/
def createGroup (db : DB) (name parentGroup : String) : DB × GroupMsg :=
  let insert (parentID : Option Int) : DB × GroupMsg :=
    if db.groups.any (fun g => g.group_name == name) then (db, .alreadyExists)
    else
      let id := nextKey db.groupSeq (db.groups.map (·.group_id))
      let row : GroupRow := { group_id := id, group_name := name, parent_group_id := parentID }
      ({ db with groups := db.groups ++ [row], groupSeq := id }, .created)
  if parentGroup ≠ "" then
    match fetchGroupIDByName db parentGroup with
    | none => (db, .notFound parentGroup)
    | some id => insert (some id)
  else insert none

/-- Statement `UPDATE files SET group_id = 1 WHERE group_id = ?`. -/
def reassignFiles (db : DB) (groupID : Int) : DB :=
  { db with files := db.files.map (fun f =>
      if f.toLocal.GroupID = groupID then { f with toLocal := { f.toLocal with GroupID := 1 } }
      else f) }

/-- Statement `DELETE FROM groups WHERE group_id = ?`. -/
def deleteGroupRow (db : DB) (groupID : Int) : DB :=
  { db with groups := db.groups.filter (fun g => !(g.group_id == groupID)) }

/-- `SELECT group_id FROM groups WHERE parent_group_id = ?`. -/
def childGroupIDs (db : DB) (parentID : Int) : List Int :=
  (db.groups.filter (fun g => g.parent_group_id == some parentID)).map (·.group_id)

/-- The `for` loop of `deleteChildGroups` over the ids read before it; `recurse`
is the recursive call. The second component lists the deleted group ids in the
order of their `DELETE`. -/
def deleteChildLoop (recurse : Int → DB → Option (DB × List Int)) :
    List Int → DB → List Int → Option (DB × List Int)
  | [], db, log => some (db, log)
  | childID :: rest, db, log =>
    match recurse childID db with
    | none => none
    | some (db1, log1) =>
      deleteChildLoop recurse rest (deleteGroupRow (reassignFiles db1 childID) childID)
        (log ++ log1 ++ [childID])

/-- `deleteChildGroups`. The first argument bounds the depth of the recursion;
`none` means the bound was reached. -/
def deleteChildGroups : Nat → Int → DB → Option (DB × List Int)
  | 0, _, _ => none
  | fuel + 1, parentID, db =>
    deleteChildLoop (deleteChildGroups fuel) (childGroupIDs db parentID) db []

/-- `deleteGroup`; `fuel` bounds the depth of the recursion of `deleteChildGroups`. -/
def deleteGroup (fuel : Nat) (db : DB) (groupName : String) :
    Option (DB × List Int × GroupMsg) :=
  match fetchGroupIDByName db groupName with
  | none => some (db, [], .notFound groupName)
  | some groupID =>
    match deleteChildGroups fuel groupID (reassignFiles db groupID) with
    | none => none
    | some (db1, log) => some (deleteGroupRow db1 groupID, log ++ [groupID], .deleted)


/-! ## Concrete environments and states -/

deriving instance DecidableEq for Except

/-- Environment in which no remote call fails and message `n` gets the id made of
`n + 1` letters `a`. -/
def envOk : Env :=
  { issue := fun n => String.mk (List.replicate (n + 1) 'a'),
    sendFails := fun _ => false, fetchFails := fun _ => false, deleteFails := fun _ => false,
    sha256 := fun _ => "", tempDir := "/tmp" }

/-- Database with one file of two parts, inserted out of order, and a part of another file. -/
def dbTwoParts : DB :=
  { groups := initDB.groups,
    files := [{ ID := 1, toLocal := { Name := "f", Total_parts := 2, Size := 3, Hash := "", GroupID := 1 } }],
    parts := [⟨"b", 1⟩, ⟨"a", 1⟩, ⟨"c", 2⟩], groupSeq := 1, fileSeq := 1 }

/-- Channel holding the three messages of `dbTwoParts`. -/
def dcTwoParts : Discord :=
  { messages := [⟨"a", [("f.part0", [1, 2])]⟩, ⟨"b", [("f.part1", [3])]⟩, ⟨"c", [("g.part0", [9])]⟩],
    sent := 3 }

/-- Environment like `envOk` in which the removal of message `b` fails. -/
def envFailB : Env := { envOk with deleteFails := fun p => p == "b" }

/-- Database with one file of three parts `a`, `b`, `c`. -/
def dbThreeParts : DB :=
  { groups := initDB.groups,
    files := [{ ID := 1, toLocal := { Name := "f", Total_parts := 3, Size := 3, Hash := "", GroupID := 1 } }],
    parts := [⟨"a", 1⟩, ⟨"b", 1⟩, ⟨"c", 1⟩], groupSeq := 1, fileSeq := 1 }

/-- Channel holding the three messages of `dbThreeParts`. -/
def dcThreeParts : Discord :=
  { messages := [⟨"a", [("f.part0", [1])]⟩, ⟨"b", [("f.part1", [2])]⟩, ⟨"c", [("f.part2", [3])]⟩],
    sent := 3 }

/-! ## The parent relation of groups -/

/-- Group `c` has a row whose parent is `p`. -/
def IsChild (db : DB) (c p : Int) : Prop :=
  ∃ g ∈ db.groups, g.group_id = c ∧ g.parent_group_id = some p

/-- Group `d` is a descendant of `a`: a chain of one or more parent links leads
from `d` to `a`. -/
def IsDescendant (db : DB) (d a : Int) : Prop := Relation.TransGen (IsChild db) d a

/-- The parent relation has no cycle: no group is its own ancestor. -/
def Acyclic (db : DB) : Prop := ∀ g, ¬ IsDescendant db g g

/-- Row of `files` after `UPDATE files SET group_id = 1` for the groups of `log`. -/
def moveToRoot (log : List Int) (f : FilesDB) : FilesDB :=
  if f.toLocal.GroupID ∈ log then { f with toLocal := { f.toLocal with GroupID := 1 } } else f

/-- Store with the groups of `log` deleted and their files moved to group 1. -/
def GroupsDeleted (db db1 : DB) (log : List Int) : Prop :=
  db1.groups = db.groups.filter (fun g => decide (g.group_id ∉ log))
  ∧ db1.files = db.files.map (moveToRoot log)
  ∧ db1.parts = db.parts ∧ db1.groupSeq = db.groupSeq ∧ db1.fileSeq = db.fileSeq

/-- Every row whose parent is in `log` has its own id in `log`. -/
def ChildClosed (db : DB) (log : List Int) : Prop :=
  ∀ g ∈ db.groups, ∀ x ∈ log, g.parent_group_id = some x → g.group_id ∈ log

/-- What a run of `deleteChildGroups p` from `db` to `db1` with log `log` satisfies. -/
def ChildrenDeleted (db db1 : DB) (p : Int) (log : List Int) : Prop :=
  GroupsDeleted db db1 log
  ∧ (∀ x ∈ log, IsDescendant db x p)
  ∧ (∀ g ∈ db.groups, g.parent_group_id = some p → g.group_id ∈ log)
  ∧ ChildClosed db log

/-- Store with the tree Books > Math under the root, and one file in each group. -/
def dbBooks : DB :=
  { groups := [⟨1, "uncategorized", none⟩, ⟨2, "Books", none⟩, ⟨3, "Math", some 2⟩],
    files := [⟨1, ⟨"a", 0, 0, "", 2⟩⟩, ⟨2, ⟨"b", 0, 0, "", 3⟩⟩, ⟨3, ⟨"c", 0, 0, "", 1⟩⟩],
    parts := [], groupSeq := 3, fileSeq := 3 }

/-! ## What the chunk loop sends -/

/-- Messages the chunk loop sends for the chunks `chunks`, the first of them being
chunk number `i` and send call number `n`. -/
def sentMessages (env : Env) (name : String) : Nat → Nat → List Bytes → List Message
  | _, _, [] => []
  | i, n, c :: cs =>
    { ID := env.issue n, Attachments := [(chunkPath env name i, c)] }
      :: sentMessages env name (i + 1) (n + 1) cs

/-- Ids of the messages of the send calls `n`, ..., `n + k - 1`. -/
def issuedIDs (env : Env) : Nat → Nat → List String
  | _, 0 => []
  | n, k + 1 => env.issue n :: issuedIDs env (n + 1) k

/-- Store and channel after one earlier upload of a one-chunk file under `envOk`. -/
def dbAfterOne : DB :=
  { groups := initDB.groups,
    files := [{ ID := 1, toLocal := { Name := "f", Total_parts := 1, Size := 2, Hash := "", GroupID := 1 } }],
    parts := [⟨"a", 1⟩], groupSeq := 1, fileSeq := 1 }

/-- Channel after that upload. -/
def dcAfterOne : Discord :=
  { messages := [⟨"a", [("/tmp/f.part0", [7, 8])]⟩], sent := 1 }

/-! ## `cmd/download.go` -/

/-- What a command reports before it exits. -/
inductive CmdErr where
  | noFileFound (id : Int)
  | downloadFailed (e : Err)
  deriving DecidableEq

/-- `FetchFileNameByID`: `SELECT name FROM files WHERE id = ?`, first row. -/
def FetchFileNameByID (db : DB) (id : Int) : Except CmdErr String :=
  match db.files.find? (fun f => f.ID == id) with
  | none => .error (.noFileFound id)
  | some f => .ok f.toLocal.Name

/-- `runDownloadCmd` from the parsed file id on: the output file written under
`out/` (its name and content; `none` when none was created) and the error the
command ends with. -/
def runDownloadCmd (env : Env) (db : DB) (dc : Discord) (fileID : Int) :
    Option (String × Bytes) × Except CmdErr Unit :=
  match FetchFileNameByID db fileID with
  | .error e => (none, .error e)
  | .ok fileName =>
    match DownloadAndReassembleFile env db dc fileID with
    | (out, .error e) => (some (fileName, out), .error (.downloadFailed e))
    | (out, .ok _) => (some (fileName, out), .ok ())

/-- The loop of `DownloadAndReassembleFile` with, next to the output, the part ids
`app.DownloadPart` was called for, in the order of the calls. -/
def downloadLoopTraced (env : Env) (dc : Discord) :
    List String → Bytes → List String → Bytes × List String × Except Err Unit
  | [], out, calls => (out, calls, .ok ())
  | partID :: rest, out, calls =>
    match DownloadPart env dc partID with
    | .error _ => (out, calls ++ [partID], .error (.downloadPart partID))
    | .ok partData => downloadLoopTraced env dc rest (out ++ partData) (calls ++ [partID])

/-! ## `cmd/list.go` -/

/-- Go struct `listFile`. -/
structure listFile where
  id : Int
  name : String
  size : Int
  parts : Int
  groupName : String
  deriving DecidableEq

/-- Code point with ASCII upper case letters folded to lower case, as the `LIKE`
of SQLite compares. -/
def foldCase (c : Char) : Nat :=
  if 65 ≤ c.toNat ∧ c.toNat ≤ 90 then c.toNat + 32 else c.toNat

/-- Some suffix of the text, the whole text included, satisfies `f`. -/
def anySuffix (f : List Char → Bool) : List Char → Bool
  | [] => f []
  | c :: t => f (c :: t) || anySuffix f t

/-- The `LIKE` operator of SQLite without `ESCAPE`: `%` stands for any run of
characters, `_` for any one character, every other character for itself up to
the case of ASCII letters. -/
def likeMatch : List Char → List Char → Bool
  | [], t => t.isEmpty
  | p :: ps, t =>
    if p = '%' then anySuffix (likeMatch ps) t
    else
      match t with
      | [] => false
      | c :: cs =>
        if p = '_' then likeMatch ps cs
        else decide (foldCase p = foldCase c) && likeMatch ps cs

/-- Rows of `files f LEFT JOIN groups g ON f.group_id = g.group_id`, in table
order: a file with no group row gives one row whose group columns are `NULL`. -/
def leftJoinGroups (db : DB) : List (FilesDB × Option GroupRow) :=
  db.files.flatMap (fun f =>
    match db.groups.filter (fun g => g.group_id == f.toLocal.GroupID) with
    | [] => [(f, none)]
    | gs => gs.map (fun g => (f, some g)))

/-- The `WHERE` clause `fetchFiles` builds from its three arguments. -/
def fetchFilesWhere (search : String) (id group : Int) (row : FilesDB × Option GroupRow) : Bool :=
  (search == "" || likeMatch ("%" ++ search ++ "%").data row.1.toLocal.Name.data)
  && (id == 0 || row.1.ID == id)
  && (group == 0 || (row.2.map (·.group_id)) == some group)

/-- `rows.Scan` of one row into a `listFile`; a `NULL` group name cannot be
scanned into a Go string. -/
def scanListFile (row : FilesDB × Option GroupRow) : Except String listFile :=
  match row.2 with
  | none => .error "converting NULL to string is unsupported"
  | some g =>
    .ok { id := row.1.ID, name := row.1.toLocal.Name, size := row.1.toLocal.Size,
          parts := row.1.toLocal.Total_parts, groupName := g.group_name }

/-- The loop `for rows.Next()` of `fetchFiles`: scan each row and append it to
`files`; the first failing scan ends the function with its error. -/
def scanRows : List (FilesDB × Option GroupRow) → List listFile → Except String (List listFile)
  | [], files => .ok files
  | row :: rest, files =>
    match scanListFile row with
    | .error e => .error e
    | .ok file => scanRows rest (files ++ [file])

/-- `fetchFiles`: the query with `LIMIT 50`, then the scan of its rows. -/
def fetchFiles (db : DB) (search : String) (id group : Int) : Except String (List listFile) :=
  scanRows (((leftJoinGroups db).filter (fetchFilesWhere search id group)).take 50) []

/-! ## Sequences of group commands -/

/-- One step on the store: the statements of `Tables` that every command runs
first, `createGroup`, or `deleteGroup`. -/
inductive GroupOp where
  | init
  | create (name parentGroup : String)
  | delete (groupName : String)
  deriving DecidableEq

/-- Store after one step; `none` when `deleteGroup` reaches the bound `fuel`. -/
def applyOp (fuel : Nat) (db : DB) : GroupOp → Option DB
  | .init => some (InitDatabase db)
  | .create name parentGroup => some (createGroup db name parentGroup).1
  | .delete groupName => (deleteGroup fuel db groupName).map (·.1)

/-- Store after a sequence of steps. -/
def runOps (fuel : Nat) : List GroupOp → DB → Option DB
  | [], db => some db
  | op :: ops, db =>
    match applyOp fuel db op with
    | none => none
    | some db1 => runOps fuel ops db1

/-- Every parent id is smaller than the id of the row that names it. -/
def ParentBelow (db : DB) : Prop :=
  ∀ g ∈ db.groups, ∀ p, g.parent_group_id = some p → p < g.group_id

/-- Every group of the log has all its children in `db` among `seen` and the
groups before it in the log. -/
def ChildrenFirst (db : DB) : List Int → List Int → Prop
  | _, [] => True
  | seen, x :: rest =>
    (∀ g ∈ db.groups, g.parent_group_id = some x → g.group_id ∈ seen)
    ∧ ChildrenFirst db (seen ++ [x]) rest

/-- Environment like `envOk` in which the fetch of part `b` fails. -/
def envFetchFailB : Env := { envOk with fetchFails := fun p => p == "b" }

/-- Environment like `envOk` in which the second send call fails. -/
def envSendFail1 : Env := { envOk with sendFails := fun n => n == 1 }

/-- Store with one file named `report` in the root group. -/
def dbReport : DB :=
  { groups := initDB.groups,
    files := [{ ID := 1, toLocal := { Name := "report", Total_parts := 0, Size := 0, Hash := "", GroupID := 1 } }],
    parts := [], groupSeq := 1, fileSeq := 1 }

/-- Group table with a cycle: each of the groups 2 and 3 is the parent of the other. -/
def dbCycle : DB :=
  { groups := [⟨1, "uncategorized", none⟩, ⟨2, "a", some 3⟩, ⟨3, "b", some 2⟩],
    files := [], parts := [], groupSeq := 3, fileSeq := 0 }

/-! ## The order of part ids -/

theorem lexLe_refl (a : List Nat) : lexLe a a = true := by
  induction a with
  | nil => rfl
  | cons x xs ih => simp [lexLe, ih]

theorem lexLe_total (a b : List Nat) : lexLe a b = true ∨ lexLe b a = true := by
  induction a generalizing b with
  | nil => simp [lexLe]
  | cons x xs ih =>
    cases b with
    | nil => simp [lexLe]
    | cons y ys =>
      simp only [lexLe, Bool.or_eq_true, Bool.and_eq_true, decide_eq_true_eq]
      rcases Nat.lt_trichotomy x y with h | h | h
      · exact Or.inl (Or.inl h)
      · subst h
        rcases ih ys with h1 | h1
        · exact Or.inl (Or.inr ⟨rfl, h1⟩)
        · exact Or.inr (Or.inr ⟨rfl, h1⟩)
      · exact Or.inr (Or.inl h)

theorem lexLe_trans (a b c : List Nat) (hab : lexLe a b = true) (hbc : lexLe b c = true) :
    lexLe a c = true := by
  induction a generalizing b c with
  | nil => simp [lexLe]
  | cons x xs ih =>
    cases b with
    | nil => simp [lexLe] at hab
    | cons y ys =>
      cases c with
      | nil => simp [lexLe] at hbc
      | cons z zs =>
        simp only [lexLe, Bool.or_eq_true, Bool.and_eq_true, decide_eq_true_eq] at hab hbc ⊢
        rcases hab with h | ⟨h, h1⟩
        · rcases hbc with h2 | ⟨h2, _⟩
          · exact Or.inl (by omega)
          · exact Or.inl (by omega)
        · rcases hbc with h2 | ⟨h2, h3⟩
          · exact Or.inl (by omega)
          · exact Or.inr ⟨by omega, ih ys zs h1 h3⟩

theorem lexLe_antisymm (a b : List Nat) (hab : lexLe a b = true) (hba : lexLe b a = true) :
    a = b := by
  induction a generalizing b with
  | nil => cases b with
    | nil => rfl
    | cons y ys => simp [lexLe] at hba
  | cons x xs ih =>
    cases b with
    | nil => simp [lexLe] at hab
    | cons y ys =>
      simp only [lexLe, Bool.or_eq_true, Bool.and_eq_true, decide_eq_true_eq] at hab hba
      rcases hab with h | ⟨h, h1⟩
      · rcases hba with h2 | ⟨h2, _⟩ <;> omega
      · rcases hba with h2 | ⟨_, h3⟩
        · omega
        · rw [h, ih ys h1 h3]

theorem idKey_injective (a b : String) (h : idKey a = idKey b) : a = b := by
  unfold idKey at h
  have h1 : a.data = b.data := by
    apply List.map_injective_iff.mpr _ h
    intro c d hcd
    exact Char.ext (UInt32.ext (by simpa [Char.toNat, UInt32.toNat] using hcd))
  exact String.ext h1


/-! ## `GetPartIDs` -/

theorem GetPartIDs_sorted (db : DB) (fileID : Int) : (GetPartIDs db fileID).Sorted idLe :=
  @List.sorted_insertionSort _ idLe _ ⟨fun _ _ => lexLe_total _ _⟩
    ⟨fun _ _ _ => lexLe_trans _ _ _⟩ _

theorem GetPartIDs_perm (db : DB) (fileID : Int) :
    (GetPartIDs db fileID).Perm ((db.parts.filter (fun r => r.file_id == fileID)).map (·.part_id)) :=
  List.perm_insertionSort idLe _

theorem mem_GetPartIDs (db : DB) (fileID : Int) (p : String) :
    p ∈ GetPartIDs db fileID ↔ (⟨p, fileID⟩ : PartRow) ∈ db.parts := by
  rw [(GetPartIDs_perm db fileID).mem_iff]
  simp only [List.mem_map, List.mem_filter, beq_iff_eq]
  constructor
  · rintro ⟨r, ⟨hr, hf⟩, rfl⟩
    cases r
    simp only at hf
    subst hf
    exact hr
  · intro h
    exact ⟨_, ⟨h, rfl⟩, rfl⟩

theorem GetPartIDs_nodup (db : DB) (fileID : Int) (hpk : (db.parts.map (·.part_id)).Nodup) :
    (GetPartIDs db fileID).Nodup := by
  rw [(GetPartIDs_perm db fileID).nodup_iff]
  exact (List.Nodup.sublist (List.Sublist.map _ (List.filter_sublist _)) hpk)

theorem GetPartIDs_strict (db : DB) (fileID : Int) (hpk : (db.parts.map (·.part_id)).Nodup) :
    (GetPartIDs db fileID).Pairwise idLt := by
  have h1 := GetPartIDs_sorted db fileID
  have h2 := GetPartIDs_nodup db fileID hpk
  unfold List.Sorted at h1
  unfold List.Nodup at h2
  exact (h1.and h2).imp (fun h => h)

/-! ## Download -/

theorem downloadLoop_ok (env : Env) (dc : Discord) (data : String → Bytes) (ids : List String)
    (out : Bytes) (h : ∀ p ∈ ids, DownloadPart env dc p = .ok (data p)) :
    downloadLoop env dc ids out = (out ++ ids.flatMap data, .ok ()) := by
  induction ids generalizing out with
  | nil => simp [downloadLoop]
  | cons p rest ih =>
    have hp := h p (List.mem_cons_self _ _)
    simp only [downloadLoop, hp]
    rw [ih _ (fun q hq => h q (List.mem_cons_of_mem _ hq))]
    simp [List.flatMap_cons]

theorem GetPartIDs_nil (db : DB) (fileID : Int) (h : ∀ r ∈ db.parts, r.file_id ≠ fileID) :
    GetPartIDs db fileID = [] := by
  have : db.parts.filter (fun r => r.file_id == fileID) = [] := by
    rw [List.filter_eq_nil_iff]
    intro r hr
    simpa using h r hr
  simp [GetPartIDs, this]

/-- C5. When every fetch of a part of the file succeeds (`data p` being the bytes
fetched for part `p`), `DownloadAndReassembleFile` returns no error and the output
is the concatenation of the fetched bytes over the list `GetPartIDs` returns; that
list is in ascending lexicographic order of id and is a rearrangement of exactly
the ids of the Part rows of the file. A file with no Part rows gives an empty
output and no error. -/
theorem download_ordering_law (env : Env) (db : DB) (dc : Discord) (fileID : Int)
    (data : String → Bytes)
    (hfetch : ∀ p ∈ GetPartIDs db fileID, DownloadPart env dc p = .ok (data p)) :
    DownloadAndReassembleFile env db dc fileID = ((GetPartIDs db fileID).flatMap data, .ok ())
    ∧ (GetPartIDs db fileID).Sorted idLe
    ∧ (GetPartIDs db fileID).Perm
        ((db.parts.filter (fun r => r.file_id == fileID)).map (·.part_id))
    ∧ ((∀ r ∈ db.parts, r.file_id ≠ fileID) →
        DownloadAndReassembleFile env db dc fileID = ([], .ok ())) := by
  have h1 : DownloadAndReassembleFile env db dc fileID
      = ((GetPartIDs db fileID).flatMap data, .ok ()) := by
    unfold DownloadAndReassembleFile
    rw [downloadLoop_ok env dc data _ _ hfetch]
    simp
  refine ⟨h1, GetPartIDs_sorted db fileID, GetPartIDs_perm db fileID, ?_⟩
  intro h
  rw [h1, GetPartIDs_nil db fileID h]
  simp

theorem download_ordering_law_witness :
    DownloadAndReassembleFile envOk dbTwoParts dcTwoParts 1 = ([1, 2, 3], .ok ()) :=
  (download_ordering_law envOk dbTwoParts dcTwoParts 1
    (fun p => if p = "a" then [1, 2] else [3]) (by decide)).1

/-! ## Delete -/

theorem ChannelMessageDelete_isSome (env : Env) (dc : Discord) (p : String) :
    (ChannelMessageDelete env dc p).isSome ↔
      env.deleteFails p = false ∧ ∃ m ∈ dc.messages, m.ID = p := by
  unfold ChannelMessageDelete
  by_cases h1 : env.deleteFails p = true
  · simp [h1]
  · by_cases h2 : (dc.messages.any (fun m => m.ID == p)) = true
    · have h3 := h2
      simp only [List.any_eq_true, beq_iff_eq] at h3
      simp [h1, h2, h3]
    · have h3 := h2
      simp only [List.any_eq_true, beq_iff_eq] at h3
      simp [h1, h2, h3]

theorem ChannelMessageDelete_eq (env : Env) (dc : Discord) (p : String)
    (h : (ChannelMessageDelete env dc p).isSome) :
    ChannelMessageDelete env dc p
      = some { dc with messages := dc.messages.filter (fun m => !(m.ID == p)) } := by
  have h1 := (ChannelMessageDelete_isSome env dc p).mp h
  have h2 : (dc.messages.any (fun m => m.ID == p)) = true := by
    simpa only [List.any_eq_true, beq_iff_eq] using h1.2
  simp [ChannelMessageDelete, h1.1, h2]

/-- State after the rounds of the loop of `DeleteFileParts` for the ids `pre`. -/
theorem deleteLoop_append (env : Env) (pre rest : List String) (db : DB) (dc : Discord)
    (log : List Effect) (hnd : pre.Nodup)
    (hpre : ∀ p ∈ pre, (ChannelMessageDelete env dc p).isSome) :
    deleteLoop env (pre ++ rest) db dc log =
      deleteLoop env rest
        { db with parts := db.parts.filter (fun r => decide (r.part_id ∉ pre)) }
        { dc with messages := dc.messages.filter (fun m => decide (m.ID ∉ pre)) }
        (log ++ pre.flatMap (fun p => [.messageDeleted p, .partRowDeleted p])) := by
  induction pre generalizing db dc log with
  | nil => simp
  | cons p pre ih =>
    have hp := hpre p (List.mem_cons_self _ _)
    rw [List.nodup_cons] at hnd
    simp only [List.cons_append, deleteLoop, ChannelMessageDelete_eq env dc p hp, List.append_eq]
    rw [ih]
    · simp only [deletePartRow, List.filter_filter, List.flatMap_cons, List.append_assoc]
      congr 2
      · congr 1
        funext r
        by_cases h : r.part_id = p <;> simp [h]
      · congr 1
        funext m
        by_cases h : m.ID = p <;> simp [h]
    · exact hnd.2
    · intro q hq
      have hqp : q ≠ p := fun e => hnd.1 (e ▸ hq)
      have h1 := (ChannelMessageDelete_isSome env dc q).mp (hpre q (List.mem_cons_of_mem _ hq))
      rw [ChannelMessageDelete_isSome]
      refine ⟨h1.1, ?_⟩
      obtain ⟨m, hm, rfl⟩ := h1.2
      exact ⟨m, by simp [List.mem_filter, hm, hqp], rfl⟩

theorem ChannelMessageDelete_filter_none (env : Env) (dc : Discord) (pre : List String)
    (p : String) (hp : p ∉ pre) (h : ChannelMessageDelete env dc p = none) :
    ChannelMessageDelete env
      { dc with messages := dc.messages.filter (fun m => decide (m.ID ∉ pre)) } p = none := by
  have h1 : ¬ (ChannelMessageDelete env dc p).isSome := by simp [h]
  have h2 : ¬ (ChannelMessageDelete env
      { dc with messages := dc.messages.filter (fun m => decide (m.ID ∉ pre)) } p).isSome := by
    rw [ChannelMessageDelete_isSome] at h1 ⊢
    rintro ⟨ha, m, hm, rfl⟩
    exact h1 ⟨ha, m, (List.mem_filter.mp hm).1, rfl⟩
  simpa using h2

/-- C6. Let the parts of the file be `pre ++ pk :: post` in the order `GetPartIDs`
returns them (strictly ascending), let the backend removal of every part of
`pre` succeed and that of `pk` fail. Then `DeleteFileParts` returns the error
naming `pk`; no Part row and no backend message is left for a part of `pre`; the
Part rows of `pk` and of the later parts are still in the store; the `files`
table, and so the File row, is unchanged. The primary key of `parts` is taken to
hold in the starting store. -/
theorem partial_delete_exposure (env : Env) (db : DB) (dc : Discord) (fileID : Int)
    (pre : List String) (pk : String) (post : List String)
    (hkey : (db.parts.map (·.part_id)).Nodup)
    (hids : GetPartIDs db fileID = pre ++ pk :: post)
    (hpre : ∀ p ∈ pre, (ChannelMessageDelete env dc p).isSome)
    (hfail : ChannelMessageDelete env dc pk = none) :
    ∃ db1 dc1 log, DeleteFileParts env db dc fileID = (db1, dc1, log, .error (.deleteMessage pk))
      ∧ (∀ p ∈ pre, (∀ r ∈ db1.parts, r.part_id ≠ p) ∧ (∀ m ∈ dc1.messages, m.ID ≠ p))
      ∧ (∀ p ∈ pk :: post, (⟨p, fileID⟩ : PartRow) ∈ db1.parts)
      ∧ db1.files = db.files
      ∧ log = pre.flatMap (fun p => [.messageDeleted p, .partRowDeleted p])
      ∧ (pre ++ pk :: post).Pairwise idLt := by
  have hnd : (pre ++ pk :: post).Nodup := hids ▸ GetPartIDs_nodup db fileID hkey
  have hnd1 : pre.Nodup := (List.nodup_append.mp hnd).1
  have hdisj : ∀ p ∈ pk :: post, p ∉ pre := fun p hp hq =>
    (List.nodup_append.mp hnd).2.2 hq hp
  refine ⟨{ db with parts := db.parts.filter (fun r => decide (r.part_id ∉ pre)) },
    { dc with messages := dc.messages.filter (fun m => decide (m.ID ∉ pre)) },
    pre.flatMap (fun p => [.messageDeleted p, .partRowDeleted p]), ?_, ?_, ?_, rfl, rfl, ?_⟩
  · unfold DeleteFileParts
    rw [hids, deleteLoop_append env pre _ db dc [] hnd1 hpre]
    simp only [deleteLoop, List.nil_append]
    rw [ChannelMessageDelete_filter_none env dc pre pk (hdisj pk (List.mem_cons_self _ _)) hfail]
  · intro p hp
    constructor
    · intro r hr e
      have := (List.mem_filter.mp hr).2
      simp [e, hp] at this
    · intro m hm e
      have := (List.mem_filter.mp hm).2
      simp [e, hp] at this
  · intro p hp
    have h1 : p ∈ GetPartIDs db fileID := by
      rw [hids]
      exact List.mem_append_right _ hp
    rw [mem_GetPartIDs] at h1
    simp only [List.mem_filter, decide_eq_true_eq]
    exact ⟨h1, hdisj p hp⟩
  · exact hids ▸ GetPartIDs_strict db fileID hkey

theorem partial_delete_exposure_witness :
    ∃ db1 dc1 log, DeleteFileParts envFailB dbThreeParts dcThreeParts 1
        = (db1, dc1, log, .error (.deleteMessage "b"))
      ∧ (∀ p ∈ ["a"], (∀ r ∈ db1.parts, r.part_id ≠ p) ∧ (∀ m ∈ dc1.messages, m.ID ≠ p))
      ∧ (∀ p ∈ ["b", "c"], (⟨p, 1⟩ : PartRow) ∈ db1.parts)
      ∧ db1.files = dbThreeParts.files
      ∧ log = ["a"].flatMap (fun p => [.messageDeleted p, .partRowDeleted p])
      ∧ (["a"] ++ "b" :: ["c"]).Pairwise idLt :=
  partial_delete_exposure envFailB dbThreeParts dcThreeParts 1 ["a"] "b" ["c"]
    (by decide) (by decide) (by decide) (by decide)

/-- C7. When the backend removal of every part of the file succeeds,
`DeleteFileParts` returns no error; what it did is, for each part id in the
strictly ascending order of `GetPartIDs`, the backend removal followed by the
removal of the Part row, and last the removal of the File row; afterwards the
store has no Part row with that `file_id` and no File row with that id, and the
backend has none of the parts. The primary key of `parts` is taken to hold in the
starting store. -/
theorem delete_all_parts (env : Env) (db : DB) (dc : Discord) (fileID : Int)
    (hkey : (db.parts.map (·.part_id)).Nodup)
    (hok : ∀ p ∈ GetPartIDs db fileID, (ChannelMessageDelete env dc p).isSome) :
    ∃ db1 dc1, DeleteFileParts env db dc fileID
        = (db1, dc1, (GetPartIDs db fileID).flatMap (fun p => [.messageDeleted p, .partRowDeleted p])
            ++ [.fileRowDeleted fileID], .ok ())
      ∧ (GetPartIDs db fileID).Pairwise idLt
      ∧ (∀ r ∈ db1.parts, r.file_id ≠ fileID)
      ∧ (∀ f ∈ db1.files, f.ID ≠ fileID)
      ∧ (∀ p ∈ GetPartIDs db fileID, ∀ m ∈ dc1.messages, m.ID ≠ p) := by
  have hnd := GetPartIDs_nodup db fileID hkey
  refine ⟨deleteFileRow
      { db with parts := db.parts.filter (fun r => decide (r.part_id ∉ GetPartIDs db fileID)) } fileID,
    { dc with messages := dc.messages.filter (fun m => decide (m.ID ∉ GetPartIDs db fileID)) },
    ?_, GetPartIDs_strict db fileID hkey, ?_, ?_, ?_⟩
  · unfold DeleteFileParts
    have h := deleteLoop_append env (GetPartIDs db fileID) [] db dc [] hnd hok
    rw [List.append_nil] at h
    rw [h]
    simp [deleteLoop]
  · intro r hr e
    simp only [deleteFileRow, List.mem_filter, decide_eq_true_eq] at hr
    apply hr.2
    rw [mem_GetPartIDs]
    cases r
    simp only at e
    subst e
    exact hr.1
  · intro f hf e
    simp only [deleteFileRow, List.mem_filter] at hf
    simp [e] at hf
  · intro p hp m hm e
    have := (List.mem_filter.mp hm).2
    simp [e, hp] at this

theorem delete_all_parts_witness :
    ∃ db1 dc1, DeleteFileParts envOk dbThreeParts dcThreeParts 1
        = (db1, dc1, (GetPartIDs dbThreeParts 1).flatMap
            (fun p => [.messageDeleted p, .partRowDeleted p]) ++ [.fileRowDeleted 1], .ok ())
      ∧ (GetPartIDs dbThreeParts 1).Pairwise idLt
      ∧ (∀ r ∈ db1.parts, r.file_id ≠ 1)
      ∧ (∀ f ∈ db1.files, f.ID ≠ 1)
      ∧ (∀ p ∈ GetPartIDs dbThreeParts 1, ∀ m ∈ dc1.messages, m.ID ≠ p) :=
  delete_all_parts envOk dbThreeParts dcThreeParts 1 (by decide) (by decide)

/-! ## Groups: create, delete of the root -/

theorem fetchGroupIDByName_some (db : DB) (name : String) (id : Int)
    (h : fetchGroupIDByName db name = some id) :
    ∃ g ∈ db.groups, g.group_name = name ∧ g.group_id = id := by
  unfold fetchGroupIDByName at h
  cases hf : db.groups.find? (fun g => g.group_name == name) with
  | none => simp [hf] at h
  | some g =>
    simp only [hf, Option.map_some', Option.some.injEq] at h
    refine ⟨g, List.mem_of_find?_eq_some hf, ?_, h⟩
    simpa using List.find?_some hf

theorem fetchGroupIDByName_none (db : DB) (name : String) :
    fetchGroupIDByName db name = none ↔ ∀ g ∈ db.groups, g.group_name ≠ name := by
  unfold fetchGroupIDByName
  simp [List.find?_eq_none]

theorem maxKey_ge (lo : Int) (keys : List Int) : ∀ k ∈ keys, k ≤ maxKey lo keys := by
  induction keys with
  | nil => simp
  | cons a l ih =>
    intro k hk
    simp only [maxKey]
    rcases List.mem_cons.mp hk with h | h
    · subst h
      exact le_max_left _ _
    · exact le_trans (ih k h) (le_max_right _ _)

theorem maxKey_ge_lo (lo : Int) (keys : List Int) : lo ≤ maxKey lo keys := by
  induction keys with
  | nil => simp [maxKey]
  | cons a l ih => exact le_trans ih (le_max_right _ _)

theorem nextKey_fresh (seq : Int) (keys : List Int) : ∀ k ∈ keys, k ≠ nextKey seq keys := by
  intro k hk
  have := maxKey_ge seq keys k hk
  unfold nextKey
  omega

/-- C10, counterexample. In the fresh store a group named `uncategorized` exists
and no group is named `missing`; `createGroup` with that name and that parent
reports the missing parent, not the name collision. -/
theorem create_group_collision_counterexample :
    (∃ g ∈ initDB.groups, g.group_name = "uncategorized")
    ∧ (createGroup initDB "uncategorized" "missing").2 ≠ GroupMsg.alreadyExists
    ∧ createGroup initDB "uncategorized" "missing" = (initDB, GroupMsg.notFound "missing") := by
  decide

/-- C10, amended. `createGroup name parent` (a) reports not-found and leaves the
store as it was when a parent name is given that no group has; (b) reports
already-exists and leaves the store as it was when a group named `name` exists
and the parent name, if given, is the name of a group; (c) otherwise adds exactly
one row at the end of `groups`, with an id no existing group has, the given name,
and as parent the id of the group named `parent` (none when no parent is
given). -/
theorem create_group_contract (db : DB) (name parent : String) :
    ((parent ≠ "" ∧ ∀ g ∈ db.groups, g.group_name ≠ parent) →
        createGroup db name parent = (db, GroupMsg.notFound parent))
    ∧ ((parent = "" ∨ ∃ g ∈ db.groups, g.group_name = parent) →
        (∃ g ∈ db.groups, g.group_name = name) →
        createGroup db name parent = (db, GroupMsg.alreadyExists))
    ∧ ((parent = "" ∨ ∃ g ∈ db.groups, g.group_name = parent) →
        (∀ g ∈ db.groups, g.group_name ≠ name) →
        ∃ id pid, createGroup db name parent
            = ({ db with groups := db.groups ++ [⟨id, name, pid⟩], groupSeq := id },
                GroupMsg.created)
          ∧ (∀ g ∈ db.groups, g.group_id ≠ id)
          ∧ (parent = "" → pid = none)
          ∧ (parent ≠ "" → ∃ g ∈ db.groups, g.group_name = parent ∧ pid = some g.group_id)) := by
  have hany : (db.groups.any (fun g => g.group_name == name) = true)
      ↔ ∃ g ∈ db.groups, g.group_name = name := by
    simp [List.any_eq_true]
  have hfresh : ∀ g ∈ db.groups,
      g.group_id ≠ nextKey db.groupSeq (db.groups.map (·.group_id)) := fun g hg =>
    nextKey_fresh _ _ _ (List.mem_map_of_mem _ hg)
  refine ⟨?_, ?_, ?_⟩
  · rintro ⟨hp, hnone⟩
    have h := (fetchGroupIDByName_none db parent).mpr hnone
    simp [createGroup, hp, h]
  · intro hpar hname
    have h1 := hany.mpr hname
    by_cases hp : parent = ""
    · simp [createGroup, hp, h1]
    · rcases hpar with hpar | hpar
      · exact absurd hpar hp
      · cases hf : fetchGroupIDByName db parent with
        | none => exact absurd hpar (by
            have := (fetchGroupIDByName_none db parent).mp hf
            rintro ⟨g, hg, e⟩
            exact this g hg e)
        | some id => simp [createGroup, hp, hf, h1]
  · intro hpar hname
    have h1 : ¬ (db.groups.any (fun g => g.group_name == name) = true) := by
      rw [hany]
      rintro ⟨g, hg, e⟩
      exact hname g hg e
    by_cases hp : parent = ""
    · refine ⟨_, none, ?_, hfresh, fun _ => rfl, fun h => absurd hp h⟩
      simp [createGroup, hp, h1]
    · rcases hpar with hpar | hpar
      · exact absurd hpar hp
      · cases hf : fetchGroupIDByName db parent with
        | none => exact absurd hpar (by
            have := (fetchGroupIDByName_none db parent).mp hf
            rintro ⟨g, hg, e⟩
            exact this g hg e)
        | some id =>
          obtain ⟨g, hg, hgn, hgi⟩ := fetchGroupIDByName_some db parent id hf
          refine ⟨_, some id, ?_, hfresh, fun h => absurd h hp, fun _ => ⟨g, hg, hgn, by rw [hgi]⟩⟩
          simp [createGroup, hp, hf, h1]

theorem create_group_contract_witness :
    ∃ id pid, createGroup initDB "Math" "uncategorized"
        = ({ initDB with groups := initDB.groups ++ [⟨id, "Math", pid⟩], groupSeq := id },
            GroupMsg.created)
      ∧ (∀ g ∈ initDB.groups, g.group_id ≠ id)
      ∧ ("uncategorized" = "" → pid = none)
      ∧ ("uncategorized" ≠ "" →
          ∃ g ∈ initDB.groups, g.group_name = "uncategorized" ∧ pid = some g.group_id) :=
  (create_group_contract initDB "Math" "uncategorized").2.2
    (Or.inr ⟨_, List.mem_cons_self _ _, rfl⟩) (by decide)

theorem InitDatabase_empty : InitDatabase emptyDB = initDB := by decide

/-- C9, the code at the failing input. In the fresh store `deleteGroup` of the
root group's name is not rejected: the name resolves to id 1, the row is
deleted, success is reported and the `groups` table is left empty. The next
command's `InitDatabase` inserts `uncategorized` again, under id 2, so no group
has id 1 from then on. -/
theorem delete_root_group_not_rejected :
    fetchGroupIDByName initDB "uncategorized" = some 1
    ∧ (∀ fuel, deleteGroup (fuel + 1) initDB "uncategorized"
        = some ({ initDB with groups := [] }, [1], GroupMsg.deleted))
    ∧ (InitDatabase { initDB with groups := [] }).groups = [⟨2, "uncategorized", none⟩] := by
  refine ⟨by decide, fun fuel => ?_, by decide⟩
  rfl

/-! ## Groups: cascading delete -/

theorem moveToRoot_moveToRoot (l1 l2 : List Int) (f : FilesDB) :
    moveToRoot l2 (moveToRoot l1 f) = moveToRoot (l1 ++ l2) f := by
  unfold moveToRoot
  by_cases h1 : f.toLocal.GroupID ∈ l1
  · by_cases h2 : (1 : Int) ∈ l2 <;> simp [h1, h2]
  · by_cases h2 : f.toLocal.GroupID ∈ l2 <;> simp [h1, h2]

theorem moveToRoot_nil (f : FilesDB) : moveToRoot [] f = f := by
  simp [moveToRoot]

theorem GroupsDeleted_refl (db : DB) : GroupsDeleted db db [] := by
  refine ⟨?_, ?_, rfl, rfl, rfl⟩
  · simp
  · have : moveToRoot [] = id := funext moveToRoot_nil
    simp [this]

theorem GroupsDeleted_trans {db db1 db2 : DB} {l1 l2 : List Int}
    (h1 : GroupsDeleted db db1 l1) (h2 : GroupsDeleted db1 db2 l2) :
    GroupsDeleted db db2 (l1 ++ l2) := by
  obtain ⟨a1, b1, c1, d1, e1⟩ := h1
  obtain ⟨a2, b2, c2, d2, e2⟩ := h2
  refine ⟨?_, ?_, c2.trans c1, d2.trans d1, e2.trans e1⟩
  · rw [a2, a1, List.filter_filter]
    congr 1
    funext g
    by_cases x1 : g.group_id ∈ l1 <;> by_cases x2 : g.group_id ∈ l2 <;> simp [x1, x2]
  · rw [b2, b1, List.map_map]
    congr 1
    funext f
    exact moveToRoot_moveToRoot l1 l2 f

theorem GroupsDeleted_step (db : DB) (c : Int) :
    GroupsDeleted db (deleteGroupRow (reassignFiles db c) c) [c] := by
  refine ⟨?_, ?_, rfl, rfl, rfl⟩
  · simp only [deleteGroupRow, reassignFiles]
    congr 1
    funext g
    by_cases h : g.group_id = c <;> simp [h]
  · simp only [deleteGroupRow, reassignFiles]
    congr 1
    funext f
    simp [moveToRoot]

theorem GroupsDeleted_subset {db db1 : DB} {log : List Int} (h : GroupsDeleted db db1 log) :
    ∀ g ∈ db1.groups, g ∈ db.groups := by
  intro g hg
  rw [h.1] at hg
  exact (List.mem_filter.mp hg).1

theorem IsChild_mono {db db1 : DB} (h : ∀ g ∈ db1.groups, g ∈ db.groups) {c p : Int}
    (hc : IsChild db1 c p) : IsChild db c p := by
  obtain ⟨g, hg, e1, e2⟩ := hc
  exact ⟨g, h g hg, e1, e2⟩

theorem IsDescendant_mono {db db1 : DB} (h : ∀ g ∈ db1.groups, g ∈ db.groups) {d a : Int}
    (hd : IsDescendant db1 d a) : IsDescendant db d a :=
  Relation.TransGen.mono (fun _ _ hc => IsChild_mono h hc) hd

theorem mem_childGroupIDs (db : DB) (p c : Int) : c ∈ childGroupIDs db p ↔ IsChild db c p := by
  unfold childGroupIDs IsChild
  simp only [List.mem_map, List.mem_filter, beq_iff_eq]
  constructor
  · rintro ⟨g, ⟨hg, hp⟩, rfl⟩
    exact ⟨g, hg, rfl, hp⟩
  · rintro ⟨g, hg, rfl, hp⟩
    exact ⟨g, ⟨hg, hp⟩, rfl⟩

/-- The loop of `deleteChildGroups` keeps the description of the store by the log,
given that every recursive call does. -/
theorem deleteChildLoop_spec (recurse : Int → DB → Option (DB × List Int))
    (hrec : ∀ c db db1 l1, recurse c db = some (db1, l1) → ChildrenDeleted db db1 c l1)
    (dbE : DB) (p : Int) (cs : List Int) (db : DB) (log : List Int) (db2 : DB) (log2 : List Int)
    (hdel : GroupsDeleted dbE db log) (hclosed : ChildClosed dbE log)
    (hdesc : ∀ x ∈ log, IsDescendant dbE x p) (hcs : ∀ c ∈ cs, IsChild dbE c p)
    (hrun : deleteChildLoop recurse cs db log = some (db2, log2)) :
    GroupsDeleted dbE db2 log2 ∧ ChildClosed dbE log2 ∧ (∀ x ∈ log2, IsDescendant dbE x p)
      ∧ (∀ c ∈ cs, c ∈ log2) ∧ (∀ x ∈ log, x ∈ log2) := by
  induction cs generalizing db log with
  | nil =>
    simp only [deleteChildLoop, Option.some.injEq, Prod.mk.injEq] at hrun
    obtain ⟨rfl, rfl⟩ := hrun
    exact ⟨hdel, hclosed, hdesc, by simp, fun x hx => hx⟩
  | cons c rest ih =>
    simp only [deleteChildLoop] at hrun
    cases hr : recurse c db with
    | none => simp [hr] at hrun
    | some r =>
      obtain ⟨db1, l1⟩ := r
      simp only [hr] at hrun
      obtain ⟨hd1, hdesc1, hch1, hcl1⟩ := hrec c db db1 l1 hr
      have hsub : ∀ g ∈ db.groups, g ∈ dbE.groups := GroupsDeleted_subset hdel
      have hcp : IsChild dbE c p := hcs c (List.mem_cons_self _ _)
      have hdel2 : GroupsDeleted dbE (deleteGroupRow (reassignFiles db1 c) c) (log ++ l1 ++ [c]) :=
        GroupsDeleted_trans (GroupsDeleted_trans hdel hd1) (GroupsDeleted_step db1 c)
      have hmemdb : ∀ g ∈ dbE.groups, g.group_id ∉ log → g ∈ db.groups := by
        intro g hg hn
        rw [hdel.1]
        exact List.mem_filter.mpr ⟨hg, by simpa using hn⟩
      have hclosed2 : ChildClosed dbE (log ++ l1 ++ [c]) := by
        intro g hg x hx hpar
        by_cases hin : g.group_id ∈ log
        · simp [hin]
        · have hgdb := hmemdb g hg hin
          simp only [List.mem_append, List.mem_singleton] at hx ⊢
          rcases hx with (hx | hx) | hx
          · exact absurd (hclosed g hg x hx hpar) hin
          · exact Or.inl (Or.inr (hcl1 g hgdb x hx hpar))
          · subst hx
            exact Or.inl (Or.inr (hch1 g hgdb hpar))
      have hdesc2 : ∀ x ∈ log ++ l1 ++ [c], IsDescendant dbE x p := by
        intro x hx
        simp only [List.mem_append, List.mem_singleton] at hx
        rcases hx with (hx | hx) | hx
        · exact hdesc x hx
        · exact Relation.TransGen.tail (IsDescendant_mono hsub (hdesc1 x hx)) hcp
        · subst hx
          exact Relation.TransGen.single hcp
      obtain ⟨r1, r2, r3, r4, r5⟩ := ih _ _ hdel2 hclosed2 hdesc2
        (fun c hc => hcs c (List.mem_cons_of_mem _ hc)) hrun
      refine ⟨r1, r2, r3, ?_, fun x hx => r5 x (by simp [hx])⟩
      intro y hy
      rcases List.mem_cons.mp hy with rfl | hy
      · exact r5 _ (by simp)
      · exact r4 y hy

/-- Every run of `deleteChildGroups` that returns deleted, by its log, exactly
groups below `p`, all children of `p` among them, closed under children. -/
theorem deleteChildGroups_spec (fuel : Nat) :
    ∀ p db db1 log, deleteChildGroups fuel p db = some (db1, log) →
      ChildrenDeleted db db1 p log := by
  induction fuel with
  | zero => intro p db db1 log h; simp [deleteChildGroups] at h
  | succ fuel ih =>
    intro p db db1 log h
    simp only [deleteChildGroups] at h
    obtain ⟨r1, r2, r3, r4, _⟩ := deleteChildLoop_spec (deleteChildGroups fuel) ih db p
      (childGroupIDs db p) db [] db1 log (GroupsDeleted_refl db) (by intro g _ x hx; simp at hx)
      (by intro x hx; simp at hx) (fun c hc => (mem_childGroupIDs db p c).mp hc) h
    refine ⟨r1, r3, ?_, r2⟩
    intro g hg hpar
    exact r4 _ ((mem_childGroupIDs db p g.group_id).mpr ⟨g, hg, rfl, hpar⟩)

/-- With children-closure, every descendant of `p` is in the log. -/
theorem descendant_mem_log (db : DB) (p : Int) (log : List Int)
    (hch : ∀ g ∈ db.groups, g.parent_group_id = some p → g.group_id ∈ log)
    (hcl : ChildClosed db log) (d : Int) (hd : IsDescendant db d p) : d ∈ log := by
  induction hd using Relation.TransGen.head_induction_on with
  | base h =>
    obtain ⟨g, hg, rfl, hp⟩ := h
    exact hch g hg hp
  | ih h _ hmem =>
    obtain ⟨g, hg, rfl, hp⟩ := h
    exact hcl g hg _ hmem hp

theorem IsChild_mem_ids {db : DB} {c p : Int} (h : IsChild db c p) :
    c ∈ db.groups.map (·.group_id) := by
  obtain ⟨g, hg, rfl, _⟩ := h
  exact List.mem_map_of_mem _ hg

theorem IsDescendant_mem_ids {db : DB} {d a : Int} (h : IsDescendant db d a) :
    d ∈ db.groups.map (·.group_id) := by
  induction h using Relation.TransGen.head_induction_on with
  | base h => exact IsChild_mem_ids h
  | ih h _ _ => exact IsChild_mem_ids h

theorem IsDescendant_exists_parent {db : DB} {d a : Int} (h : IsDescendant db d a) :
    ∃ p, IsChild db d p := by
  induction h using Relation.TransGen.head_induction_on with
  | base h => exact ⟨_, h⟩
  | ih h _ _ => exact ⟨_, h⟩

/-- In a table without a cycle the parent relation is well-founded: the table is
finite. -/
theorem wellFounded_of_acyclic (db : DB) (h : Acyclic db) : WellFounded (IsChild db) := by
  let s : Set Int := {x | x ∈ db.groups.map (·.group_id)}
  have hfin : s.Finite := List.finite_toSet _
  haveI : IsStrictOrder Int (IsDescendant db) :=
    { irrefl := h, trans := fun _ _ _ h1 h2 => Relation.TransGen.trans h1 h2 }
  have hwf := (Set.wellFoundedOn_iff.mp (Set.Finite.wellFoundedOn (r := IsDescendant db) hfin))
  have hacc : ∀ y, y ∈ s → Acc (IsDescendant db) y := by
    intro y
    refine hwf.induction (C := fun y => y ∈ s → Acc (IsDescendant db) y) y ?_
    intro y ih hy
    exact Acc.intro y (fun z hz => ih z ⟨hz, (IsDescendant_mem_ids hz), hy⟩ (IsDescendant_mem_ids hz))
  have hall : WellFounded (IsDescendant db) :=
    ⟨fun x => Acc.intro x (fun z hz => hacc z (IsDescendant_mem_ids hz))⟩
  exact Subrelation.wf (fun hc => Relation.TransGen.single hc) hall

theorem exists_common_bound (P : Int → Nat → Prop)
    (hmono : ∀ c n m, n ≤ m → P c n → P c m) (l : List Int)
    (h : ∀ c ∈ l, ∃ n, P c n) : ∃ n, ∀ c ∈ l, P c n := by
  induction l with
  | nil => exact ⟨0, by simp⟩
  | cons a l ih =>
    obtain ⟨n1, h1⟩ := h a (List.mem_cons_self _ _)
    obtain ⟨n2, h2⟩ := ih (fun c hc => h c (List.mem_cons_of_mem _ hc))
    refine ⟨max n1 n2, ?_⟩
    intro c hc
    rcases List.mem_cons.mp hc with rfl | hc
    · exact hmono _ _ _ (le_max_left _ _) h1
    · exact hmono _ _ _ (le_max_right _ _) (h2 c hc)

theorem deleteChildLoop_isSome (recurse : Int → DB → Option (DB × List Int)) (db0 : DB)
    (hspec : ∀ c db db1 l1, recurse c db = some (db1, l1) → ChildrenDeleted db db1 c l1)
    (cs : List Int)
    (hrec : ∀ c ∈ cs, ∀ db, (∀ g ∈ db.groups, g ∈ db0.groups) → (recurse c db).isSome)
    (db : DB) (log : List Int) (hsub : ∀ g ∈ db.groups, g ∈ db0.groups) :
    (deleteChildLoop recurse cs db log).isSome := by
  induction cs generalizing db log with
  | nil => simp [deleteChildLoop]
  | cons c rest ih =>
    have h1 := hrec c (List.mem_cons_self _ _) db hsub
    cases hr : recurse c db with
    | none => simp [hr] at h1
    | some r =>
      obtain ⟨db1, l1⟩ := r
      simp only [deleteChildLoop, hr]
      apply ih (fun c hc => hrec c (List.mem_cons_of_mem _ hc))
      intro g hg
      have hd := (hspec c db db1 l1 hr).1
      apply hsub
      apply GroupsDeleted_subset hd
      simp only [deleteGroupRow, reassignFiles, List.mem_filter] at hg
      exact hg.1

/-- On a table without a cycle `deleteChildGroups` returns once the bound on the
depth is large enough, from every store whose groups are rows of that table. -/
theorem deleteChildGroups_terminates (db0 : DB) (hacyc : Acyclic db0) (p : Int) :
    ∃ n, ∀ fuel, n ≤ fuel → ∀ db, (∀ g ∈ db.groups, g ∈ db0.groups) →
      (deleteChildGroups fuel p db).isSome := by
  refine (wellFounded_of_acyclic db0 hacyc).induction
    (C := fun p => ∃ n, ∀ fuel, n ≤ fuel → ∀ db, (∀ g ∈ db.groups, g ∈ db0.groups) →
      (deleteChildGroups fuel p db).isSome) p ?_
  intro p ih
  obtain ⟨n, hn⟩ := exists_common_bound
    (fun c n => ∀ fuel, n ≤ fuel → ∀ db, (∀ g ∈ db.groups, g ∈ db0.groups) →
      (deleteChildGroups fuel c db).isSome)
    (fun c n m hnm hP fuel hf => hP fuel (le_trans hnm hf))
    (childGroupIDs db0 p) (fun c hc => ih c ((mem_childGroupIDs db0 p c).mp hc))
  refine ⟨n + 1, ?_⟩
  intro fuel hfuel db hsub
  obtain ⟨f, rfl⟩ : ∃ f, fuel = f + 1 := ⟨fuel - 1, by omega⟩
  simp only [deleteChildGroups]
  apply deleteChildLoop_isSome (deleteChildGroups f) db0 (deleteChildGroups_spec f)
  · intro c hc db1 hsub1
    apply hn c _ f (by omega) db1 hsub1
    rw [mem_childGroupIDs] at hc ⊢
    exact IsChild_mono hsub hc
  · exact hsub

/-- C8. Let the group table have no cycle, let the root row (id 1) have no parent,
and let `name` resolve to a group `t` other than the root. Then `deleteGroup name`
returns once the bound on the recursion depth is large enough, and in the store
it leaves: no group is `t` or a descendant of `t`; no file references `t` or a
descendant of `t`; every file that referenced one of them is there with group 1
and is otherwise the same row. -/
theorem group_reassignment (db : DB) (name : String) (t : Int)
    (hacyc : Acyclic db)
    (hrootRow : ∀ g ∈ db.groups, g.group_id = 1 → g.parent_group_id = none)
    (hres : fetchGroupIDByName db name = some t) (hnonroot : t ≠ 1) :
    ∃ n, ∀ fuel, n ≤ fuel → ∃ db1 log,
      deleteGroup fuel db name = some (db1, log, GroupMsg.deleted)
      ∧ (∀ g ∈ db1.groups, g.group_id ≠ t ∧ ¬ IsDescendant db g.group_id t)
      ∧ (∀ f ∈ db1.files, f.toLocal.GroupID ≠ t ∧ ¬ IsDescendant db f.toLocal.GroupID t)
      ∧ (∀ f ∈ db.files, (f.toLocal.GroupID = t ∨ IsDescendant db f.toLocal.GroupID t) →
          ({ f with toLocal := { f.toLocal with GroupID := 1 } } : FilesDB) ∈ db1.files) := by
  obtain ⟨n, hn⟩ := deleteChildGroups_terminates db hacyc t
  refine ⟨n, fun fuel hfuel => ?_⟩
  have hsome := hn fuel hfuel (reassignFiles db t) (fun g hg => hg)
  cases hrun : deleteChildGroups fuel t (reassignFiles db t) with
  | none => simp [hrun] at hsome
  | some r =>
    obtain ⟨db1, log⟩ := r
    obtain ⟨hdel, hdesc, hch, hcl⟩ := deleteChildGroups_spec fuel t _ db1 log hrun
    have hdescmem : ∀ d, IsDescendant db d t → d ∈ log := fun d hd =>
      descendant_mem_log (reassignFiles db t) t log hch hcl d hd
    have hroot : ¬ IsDescendant db 1 t := by
      intro h
      obtain ⟨p, g, hg, e1, e2⟩ := IsDescendant_exists_parent h
      rw [hrootRow g hg e1] at e2
      exact absurd e2 (by simp)
    have hfiles : (deleteGroupRow db1 t).files = db.files.map (moveToRoot (t :: log)) := by
      simp only [deleteGroupRow]
      rw [hdel.2.1]
      simp only [reassignFiles, List.map_map]
      congr 1
      funext f
      have := moveToRoot_moveToRoot [t] log f
      simp only [List.singleton_append] at this
      rw [← this]
      simp [moveToRoot]
    refine ⟨deleteGroupRow db1 t, log ++ [t], ?_, ?_, ?_, ?_⟩
    · simp [deleteGroup, hres, hrun]
    · intro g hg
      simp only [deleteGroupRow, List.mem_filter, Bool.not_eq_true', beq_eq_false_iff_ne] at hg
      refine ⟨hg.2, fun hd => ?_⟩
      have h1 := hg.1
      rw [hdel.1] at h1
      have h2 := (List.mem_filter.mp h1).2
      simp only [decide_eq_true_eq] at h2
      exact h2 (hdescmem _ hd)
    · intro f hf
      rw [hfiles] at hf
      obtain ⟨f0, _, rfl⟩ := List.mem_map.mp hf
      unfold moveToRoot
      by_cases hin : f0.toLocal.GroupID ∈ t :: log
      · simp only [hin, if_true]
        exact ⟨fun e => hnonroot e.symm, hroot⟩
      · simp only [hin, if_false]
        simp only [List.mem_cons, not_or] at hin
        exact ⟨hin.1, fun hd => hin.2 (hdescmem _ hd)⟩
    · intro f hf hor
      rw [hfiles]
      refine List.mem_map.mpr ⟨f, hf, ?_⟩
      have hin : f.toLocal.GroupID ∈ t :: log := by
        rcases hor with h | h
        · simp [h]
        · exact List.mem_cons_of_mem _ (hdescmem _ h)
      simp [moveToRoot, hin]

theorem acyclic_of_rank (db : DB) (rank : Int → Nat)
    (h : ∀ g ∈ db.groups, ∀ p, g.parent_group_id = some p → rank p < rank g.group_id) :
    Acyclic db := by
  have key : ∀ d a, IsDescendant db d a → rank a < rank d := by
    intro d a hd
    induction hd with
    | single hc =>
      obtain ⟨g, hg, rfl, hp⟩ := hc
      exact h g hg _ hp
    | tail _ hc ih =>
      obtain ⟨g, hg, rfl, hp⟩ := hc
      exact lt_trans (h g hg _ hp) ih
  intro g hg
  exact lt_irrefl _ (key g g hg)

theorem dbBooks_acyclic : Acyclic dbBooks := by
  apply acyclic_of_rank dbBooks (fun x => x.toNat)
  intro g hg p hp
  simp only [dbBooks, List.mem_cons, List.mem_singleton, List.not_mem_nil, or_false] at hg
  rcases hg with rfl | rfl | rfl
  · simp at hp
  · simp at hp
  · simp only [Option.some.injEq] at hp
    subst hp
    decide

theorem group_reassignment_witness :
    ∃ n, ∀ fuel, n ≤ fuel → ∃ db1 log,
      deleteGroup fuel dbBooks "Books" = some (db1, log, GroupMsg.deleted)
      ∧ (∀ g ∈ db1.groups, g.group_id ≠ 2 ∧ ¬ IsDescendant dbBooks g.group_id 2)
      ∧ (∀ f ∈ db1.files, f.toLocal.GroupID ≠ 2 ∧ ¬ IsDescendant dbBooks f.toLocal.GroupID 2)
      ∧ (∀ f ∈ dbBooks.files,
          (f.toLocal.GroupID = 2 ∨ IsDescendant dbBooks f.toLocal.GroupID 2) →
          ({ f with toLocal := { f.toLocal with GroupID := 1 } } : FilesDB) ∈ db1.files) :=
  group_reassignment dbBooks "Books" 2 dbBooks_acyclic (by decide) (by decide) (by decide)

/-- The scenario of the specification: deleting `Books` (child `Math`, a file in
each) leaves only the root group and all three files in group 1. -/
theorem delete_books_scenario :
    deleteGroup 2 dbBooks "Books"
      = some ({ dbBooks with
                  groups := [⟨1, "uncategorized", none⟩],
                  files := [⟨1, ⟨"a", 0, 0, "", 1⟩⟩, ⟨2, ⟨"b", 0, 0, "", 1⟩⟩, ⟨3, ⟨"c", 0, 0, "", 1⟩⟩] },
              [3, 2], GroupMsg.deleted) := by
  decide

/-! ## `FilePartsCalc` below `2 ^ 53` -/

theorem bitLenAux_spec (fuel : Nat) : ∀ n, n ≤ fuel →
    n < 2 ^ bitLenAux fuel n ∧ (0 < n → 2 ^ bitLenAux fuel n ≤ 2 * n) := by
  induction fuel with
  | zero =>
    intro n hn
    have : n = 0 := by omega
    subst this
    simp [bitLenAux]
  | succ fuel ih =>
    intro n hn
    by_cases h0 : n = 0
    · subst h0
      simp [bitLenAux]
    · simp only [bitLenAux, h0, if_false]
      obtain ⟨h1, h2⟩ := ih (n / 2) (by omega)
      rw [pow_succ]
      constructor
      · omega
      · intro _
        by_cases h3 : n / 2 = 0
        · have hb : bitLenAux fuel (n / 2) = 0 := by
            rw [h3]
            cases fuel <;> simp [bitLenAux]
          rw [hb]
          omega
        · have := h2 (by omega)
          omega

theorem bitLen_spec (n : Nat) (h : 0 < n) : n < 2 ^ bitLen n ∧ 2 ^ bitLen n ≤ 2 * n := by
  obtain ⟨h1, h2⟩ := bitLenAux_spec n n (le_refl _)
  exact ⟨h1, h2 h⟩

theorem roundHalfEven_bounds (a b : Nat) (hb : 0 < b) :
    2 * b * roundHalfEven a b ≤ 2 * a + b ∧ 2 * a ≤ 2 * b * roundHalfEven a b + b := by
  have hdm := Nat.div_add_mod a b
  have hmod := Nat.mod_lt a hb
  unfold roundHalfEven
  simp only
  generalize a / b = q at *
  generalize a % b = r at *
  subst hdm
  split_ifs <;> constructor <;> nlinarith

theorem roundHalfEven_one (a : Nat) : roundHalfEven a 1 = a := by
  simp [roundHalfEven, Nat.mod_one]

/-- Converting a size below `2 ^ 53` to `float64` is exact. -/
theorem roundF64_int_exact (n : Nat) (h0 : 0 < n) (h : n < 2 ^ 53) :
    (roundF64 n 1).num = n * (roundF64 n 1).den ∧ 0 < (roundF64 n 1).den := by
  obtain ⟨hb1, hb2⟩ := bitLen_spec n h0
  have hb53 : bitLen n ≤ 53 := by
    by_contra hc
    have : 2 ^ 54 ≤ 2 ^ bitLen n := Nat.pow_le_pow_right (by decide) (by omega)
    omega
  have hbpos : 1 ≤ bitLen n := by
    by_contra hc
    have : bitLen n = 0 := by omega
    rw [this] at hb1
    omega
  have hone : bitLen 1 = 1 := by decide
  have hpow : 2 ^ (bitLen n - 1) * 2 = 2 ^ bitLen n := by
    rw [← pow_succ]
    congr 1
    omega
  have hcond : 1 * 2 ^ ((bitLen n : Int) - (1 : Nat)).toNat ≤ n * 2 ^ (-((bitLen n : Int) - (1 : Nat))).toNat := by
    have e1 : ((bitLen n : Int) - (1 : Nat)).toNat = bitLen n - 1 := by omega
    have e2 : (-((bitLen n : Int) - (1 : Nat))).toNat = 0 := by omega
    rw [e1, e2]
    omega
  have e3 : (-((bitLen n : Int) - (1 : Nat) - 52)).toNat = 53 - bitLen n := by omega
  have e4 : ((bitLen n : Int) - (1 : Nat) - 52).toNat = 0 := by omega
  have hx : roundF64 n 1
      = { man := n * 2 ^ (53 - bitLen n), exp := (bitLen n : Int) - (1 : Nat) - 52 } := by
    simp only [roundF64, hone, hcond, if_true, e3, e4, pow_zero, Nat.mul_one, roundHalfEven_one]
    rw [if_neg (by omega)]
  rw [hx]
  simp only [F64.num, F64.den, e3, e4, pow_zero, Nat.mul_one]
  exact ⟨trivial, Nat.pow_pos (by decide)⟩

/-- The rounded quotient of a size below `2 ^ 53` by `chunkSize` has the same
ceiling as the exact quotient. -/
theorem roundF64_quotient_ceil (n D : Nat) (h0 : 0 < n) (h : n < 2 ^ 53) (hD : 0 < D) :
    ((roundF64 (n * D) (D * chunkSize)).num + (roundF64 (n * D) (D * chunkSize)).den - 1)
        / (roundF64 (n * D) (D * chunkSize)).den
      = (n + chunkSize - 1) / chunkSize := by
  have hC : chunkSize = 26214400 := by decide
  rw [hC]
  have hN0 : 0 < n * D := Nat.mul_pos h0 hD
  have hM0 : 0 < D * 26214400 := Nat.mul_pos hD (by decide)
  obtain ⟨hN1, hN2⟩ := bitLen_spec (n * D) hN0
  obtain ⟨hM1, hM2⟩ := bitLen_spec (D * 26214400) hM0
  -- the exponent
  obtain ⟨E, hE, hE28⟩ : ∃ E : Int,
      roundF64 (n * D) (D * 26214400)
        = { man := roundHalfEven (n * D * 2 ^ (-(E - 52)).toNat) (D * 26214400 * 2 ^ (E - 52).toNat),
            exp := E - 52 } ∧ E ≤ 28 := by
    by_cases hcond : D * 26214400 * 2 ^ ((bitLen (n * D) : Int) - (bitLen (D * 26214400) : Int)).toNat
        ≤ n * D * 2 ^ (-((bitLen (n * D) : Int) - (bitLen (D * 26214400) : Int))).toNat
    · refine ⟨(bitLen (n * D) : Int) - (bitLen (D * 26214400) : Int), ?_, ?_⟩
      · simp only [roundF64, hcond, if_true]
        rw [if_neg (by omega)]
      · by_contra hc
        have e1 : (-((bitLen (n * D) : Int) - (bitLen (D * 26214400) : Int))).toNat = 0 := by omega
        have e2 : 29 ≤ ((bitLen (n * D) : Int) - (bitLen (D * 26214400) : Int)).toNat := by omega
        rw [e1] at hcond
        have hp : 2 ^ 29 ≤ 2 ^ ((bitLen (n * D) : Int) - (bitLen (D * 26214400) : Int)).toNat :=
          Nat.pow_le_pow_right (by decide) e2
        have h1 : D * 26214400 * 2 ^ 29 ≤ n * D * 2 ^ 0 :=
          le_trans (Nat.mul_le_mul_left _ hp) hcond
        have h2 : D * (26214400 * 2 ^ 29) ≤ D * n := by
          calc D * (26214400 * 2 ^ 29) = D * 26214400 * 2 ^ 29 := by ring
            _ ≤ n * D * 2 ^ 0 := h1
            _ = D * n := by ring
        have h3 := Nat.le_of_mul_le_mul_left h2 hD
        omega
    · refine ⟨(bitLen (n * D) : Int) - (bitLen (D * 26214400) : Int) - 1, ?_, ?_⟩
      · simp only [roundF64, hcond, if_false]
        rw [if_neg (by omega)]
      · by_contra hc
        have e2 : bitLen (D * 26214400) + 30 ≤ bitLen (n * D) := by omega
        have hp : 2 ^ (bitLen (D * 26214400) + 30) ≤ 2 ^ bitLen (n * D) :=
          Nat.pow_le_pow_right (by decide) e2
        rw [pow_add] at hp
        have h1 : D * 26214400 * 2 ^ 30 < 2 ^ bitLen (D * 26214400) * 2 ^ 30 :=
          Nat.mul_lt_mul_of_pos_right hM1 (by decide)
        have h2 : D * (26214400 * 2 ^ 30) < D * (2 * n) := by
          calc D * (26214400 * 2 ^ 30) = D * 26214400 * 2 ^ 30 := by ring
            _ < 2 ^ bitLen (D * 26214400) * 2 ^ 30 := h1
            _ ≤ 2 ^ bitLen (n * D) := hp
            _ ≤ 2 * (n * D) := hN2
            _ = D * (2 * n) := by ring
        have h3 := Nat.lt_of_mul_lt_mul_left h2
        omega
  rw [hE]
  have e3 : (E - 52).toNat = 0 := by omega
  have e4 : 24 ≤ (-(E - 52)).toNat := by omega
  simp only [F64.num, F64.den, e3, pow_zero, Nat.mul_one]
  generalize (-(E - 52)).toNat = t at e4
  have hT : 2 ^ 24 ≤ 2 ^ t := Nat.pow_le_pow_right (by decide) e4
  generalize 2 ^ t = T at hT
  obtain ⟨hr1, hr2⟩ := roundHalfEven_bounds (n * D * T) (D * 26214400) hM0
  generalize roundHalfEven (n * D * T) (D * 26214400) = man at hr1 hr2
  -- cancel D
  have hr1' : 2 * 26214400 * man ≤ 2 * (n * T) + 26214400 := by
    have : D * (2 * 26214400 * man) ≤ D * (2 * (n * T) + 26214400) := by
      calc D * (2 * 26214400 * man) = 2 * (D * 26214400) * man := by ring
        _ ≤ 2 * (n * D * T) + D * 26214400 := hr1
        _ = D * (2 * (n * T) + 26214400) := by ring
    exact Nat.le_of_mul_le_mul_left this hD
  have hr2' : 2 * (n * T) ≤ 2 * 26214400 * man + 26214400 := by
    have : D * (2 * (n * T)) ≤ D * (2 * 26214400 * man + 26214400) := by
      calc D * (2 * (n * T)) = 2 * (n * D * T) := by ring
        _ ≤ 2 * (D * 26214400) * man + D * 26214400 := hr2
        _ = D * (2 * 26214400 * man + 26214400) := by ring
    exact Nat.le_of_mul_le_mul_left this hD
  -- the ceiling
  obtain ⟨k, hk⟩ : ∃ k, (n + 26214400 - 1) / 26214400 = k + 1 :=
    ⟨(n + 26214400 - 1) / 26214400 - 1, by omega⟩
  rw [hk]
  have hk1 : 26214400 * k + 1 ≤ n := by omega
  have hk2 : n ≤ 26214400 * (k + 1) := by omega
  have hP1 : (26214400 * k + 1) * T ≤ n * T := Nat.mul_le_mul_right T hk1
  have hP2 : n * T ≤ 26214400 * (k + 1) * T := Nat.mul_le_mul_right T hk2
  have hP1' : 26214400 * (k * T) + T ≤ n * T := by
    calc 26214400 * (k * T) + T = (26214400 * k + 1) * T := by ring
      _ ≤ n * T := hP1
  have hP2' : n * T ≤ 26214400 * (k * T) + 26214400 * T := by
    calc n * T ≤ 26214400 * (k + 1) * T := hP2
      _ = 26214400 * (k * T) + 26214400 * T := by ring
  have hkT : (k + 1) * T = k * T + T := by ring
  have hkT2 : (k + 1).succ * T = k * T + 2 * T := by
    rw [Nat.succ_eq_add_one]
    ring
  apply Nat.div_eq_of_lt_le
  · rw [hkT]
    omega
  · rw [hkT2]
    omega

/-- For a size below `2 ^ 53` bytes `FilePartsCalc` is `ceil(S / chunkSize)`. -/
theorem FilePartsCalc_exact (n : Nat) (h : n < 2 ^ 53) :
    FilePartsCalc (n : Int) = (((n + chunkSize - 1) / chunkSize : Nat) : Int) := by
  by_cases h0 : n = 0
  · subst h0
    decide
  · have hpos : 0 < n := Nat.pos_of_ne_zero h0
    obtain ⟨hx, hden⟩ := roundF64_int_exact n hpos h
    have hq := roundF64_quotient_ceil n (roundF64 n 1).den hpos h hden
    simp only [FilePartsCalc, Int.natAbs_ofNat, Int.ofNat_nonneg, if_true, hx]
    rw [hq]

/-! ## Upload -/

theorem chunkSize_pos : 0 < chunkSize := by decide

theorem ceilDiv_small (n c : Nat) (h0 : 0 < n) (h1 : n < c) : (n + c - 1) / c = 1 := by
  apply Nat.div_eq_of_lt_le <;> omega

theorem ceilDiv_step (n c : Nat) (hc : 0 < c) (h1 : c ≤ n) :
    (n + c - 1) / c = (n - c + c - 1) / c + 1 := by
  have : n + c - 1 = (n - c + c - 1) + c := by omega
  rw [this, Nat.add_div_right _ hc]

theorem issuedIDs_length (env : Env) (n k : Nat) : (issuedIDs env n k).length = k := by
  induction k generalizing n with
  | zero => rfl
  | succ k ih => simp [issuedIDs, ih]

theorem mem_issuedIDs (env : Env) (n k : Nat) (p : String) :
    p ∈ issuedIDs env n k ↔ ∃ j, j < k ∧ p = env.issue (n + j) := by
  induction k generalizing n with
  | zero => simp [issuedIDs]
  | succ k ih =>
    simp only [issuedIDs, List.mem_cons, ih]
    constructor
    · rintro (rfl | ⟨j, hj, rfl⟩)
      · exact ⟨0, by omega, rfl⟩
      · exact ⟨j + 1, by omega, by rw [show n + 1 + j = n + (j + 1) by omega]⟩
    · rintro ⟨j, hj, rfl⟩
      cases j with
      | zero => exact Or.inl rfl
      | succ j => exact Or.inr ⟨j, by omega, by rw [show n + 1 + j = n + (j + 1) by omega]⟩

/-- The chunk loop when no send fails: it returns within `rest.length + 1`
rounds, having sent the chunks `chunks` one message each, in order. -/
theorem chunkLoop_ok (env : Env) (name : String) (hsend : ∀ n, env.sendFails n = false)
    (fuel : Nat) :
    ∀ (i : Nat) (rest : Bytes) (fileParts : Parts) (dc : Discord), rest.length < fuel →
      ∃ chunks : List Bytes,
        chunkLoop env name fuel i rest fileParts dc
          = some ({ messages := dc.messages ++ sentMessages env name i dc.sent chunks,
                    sent := dc.sent + chunks.length },
                  .ok { FileID := fileParts.FileID,
                        Parts := fileParts.Parts ++ issuedIDs env dc.sent chunks.length })
        ∧ chunks.flatten = rest
        ∧ chunks.length = (rest.length + chunkSize - 1) / chunkSize
        ∧ (∀ c ∈ chunks.dropLast, c.length = chunkSize)
        ∧ (∀ c, chunks.getLast? = some c →
            c.length = if rest.length % chunkSize = 0 then chunkSize else rest.length % chunkSize)
        ∧ (∀ c ∈ chunks, c ≠ []) := by
  induction fuel with
  | zero => intro i rest fileParts dc h; omega
  | succ fuel ih =>
    intro i rest fileParts dc hfuel
    have hC := chunkSize_pos
    have hlen : (rest.take chunkSize).length = min chunkSize rest.length := List.length_take _ _
    by_cases h0 : (rest.take chunkSize).length = 0
    · have hrest : rest = [] := by
        have : rest.length = 0 := by omega
        exact List.length_eq_zero.mp this
      subst hrest
      refine ⟨[], ?_, rfl, ?_, by simp, by simp, by simp⟩
      · simp [chunkLoop, sentMessages, issuedIDs]
      · simp only [List.length_nil, Nat.zero_add]
        exact (Nat.div_eq_of_lt (by omega)).symm
    · by_cases h1 : (rest.take chunkSize).length < chunkSize
      · have hlt : rest.length < chunkSize := by omega
        have htake : rest.take chunkSize = rest := List.take_of_length_le (by omega)
        have hpos : 0 < rest.length := by omega
        refine ⟨[rest], ?_, by simp, ?_, by simp, ?_, ?_⟩
        · have hrne : rest ≠ [] := fun e => by simp [e] at hpos
          simp only [chunkLoop, h0, if_false, UploadFile, ChannelMessageSendComplex, hsend,
            h1, if_true, htake, sentMessages, issuedIDs, List.length_singleton]
          simp [hrne, hlt]
        · simp only [List.length_singleton]
          exact (ceilDiv_small _ _ hpos hlt).symm
        · intro c hc
          simp only [List.getLast?_singleton, Option.some.injEq] at hc
          subst hc
          have : rest.length % chunkSize = rest.length := Nat.mod_eq_of_lt hlt
          rw [this, if_neg (by omega)]
        · intro c hc
          simp only [List.mem_singleton] at hc
          subst hc
          intro e
          simp [e] at hpos
      · have hge : chunkSize ≤ rest.length := by omega
        have hfull : (rest.take chunkSize).length = chunkSize := by omega
        have hdrop : (rest.drop chunkSize).length = rest.length - chunkSize := List.length_drop _ _
        obtain ⟨chunks, hrun, hflat, hcount, hfullc, hlast, hne⟩ :=
          ih (i + 1) (rest.drop chunkSize)
            { FileID := fileParts.FileID, Parts := fileParts.Parts ++ [env.issue dc.sent] }
            { messages := dc.messages ++
                [{ ID := env.issue dc.sent,
                   Attachments := [(chunkPath env name i, rest.take chunkSize)] }],
              sent := dc.sent + 1 } (by omega)
        refine ⟨rest.take chunkSize :: chunks, ?_, ?_, ?_, ?_, ?_, ?_⟩
        · dsimp only at hrun
          simp only [chunkLoop, h0, if_false, UploadFile, ChannelMessageSendComplex, hsend,
            h1, sentMessages, issuedIDs, List.length_cons]
          simp only [Bool.false_eq_true, if_false, hrun]
          simp [Nat.add_assoc, Nat.add_comm 1]
        · simp [hflat]
        · rw [List.length_cons, hcount, hdrop, ceilDiv_step _ _ hC hge]
        · intro c hc
          cases chunks with
          | nil => simp at hc
          | cons c1 cs =>
            simp only [List.dropLast_cons₂, List.mem_cons] at hc
            rcases hc with rfl | hc
            · exact hfull
            · exact hfullc c hc
        · intro c hc
          have hmod : (rest.length - chunkSize) % chunkSize = rest.length % chunkSize := by
            conv_rhs => rw [show rest.length = (rest.length - chunkSize) + chunkSize by omega]
            rw [Nat.add_mod_right]
          cases chunks with
          | nil =>
            simp only [List.getLast?_singleton, Option.some.injEq] at hc
            subst hc
            have hz : rest.length - chunkSize = 0 := by
              have := hcount
              simp only [List.length_nil, hdrop] at this
              by_contra hne0
              have hpos : 0 < rest.length - chunkSize := by omega
              have : chunkSize ≤ rest.length - chunkSize + chunkSize - 1 := by omega
              have := Nat.div_pos this hC
              omega
            have : rest.length % chunkSize = 0 := by
              rw [← hmod, hz, Nat.zero_mod]
            rw [if_pos this, hfull]
          | cons c1 cs =>
            rw [List.getLast?_cons_cons] at hc
            rw [hlast c hc, hdrop, hmod]
        · intro c hc
          rcases List.mem_cons.mp hc with rfl | hc
          · intro e
            rw [e] at hfull
            simp at hfull
            omega
          · exact hne c hc

/-- C2. When no send fails, the chunk loop of `Upload` over a source of `S` bytes
returns, having handed the backend one message per chunk of a list `chunks`
whose concatenation is the source (source order), with `ceil(S / chunkSize)`
chunks, every chunk but the last of exactly `chunkSize` bytes, the last of
`S mod chunkSize` bytes, or `chunkSize` when that is zero, and no chunk empty;
so an empty source gives no chunk. -/
theorem chunk_splitting (env : Env) (name : String) (content : Bytes) (fileParts : Parts)
    (dc : Discord) (hsend : ∀ n, env.sendFails n = false) :
    ∃ chunks : List Bytes,
      chunkLoop env name (content.length + 1) 0 content fileParts dc
        = some ({ messages := dc.messages ++ sentMessages env name 0 dc.sent chunks,
                  sent := dc.sent + chunks.length },
                .ok { FileID := fileParts.FileID,
                      Parts := fileParts.Parts ++ issuedIDs env dc.sent chunks.length })
      ∧ chunks.flatten = content
      ∧ chunks.length = (content.length + chunkSize - 1) / chunkSize
      ∧ (∀ c ∈ chunks.dropLast, c.length = chunkSize)
      ∧ (∀ c, chunks.getLast? = some c →
          c.length = if content.length % chunkSize = 0 then chunkSize
                     else content.length % chunkSize)
      ∧ (∀ c ∈ chunks, c ≠ [])
      ∧ (content = [] → chunks = []) := by
  obtain ⟨chunks, h1, h2, h3, h4, h5, h6⟩ :=
    chunkLoop_ok env name hsend (content.length + 1) 0 content fileParts dc (by omega)
  refine ⟨chunks, h1, h2, h3, h4, h5, h6, ?_⟩
  intro e
  subst e
  have : chunks.length = 0 := by
    rw [h3]
    simp only [List.length_nil, Nat.zero_add]
    exact Nat.div_eq_of_lt (by have := chunkSize_pos; omega)
  exact List.length_eq_zero.mp this

theorem chunk_splitting_witness :
    ∃ chunks : List Bytes,
      chunkLoop envOk "f" ([1, 2, 3] : Bytes).length.succ 0 [1, 2, 3] ⟨7, []⟩ ⟨[], 0⟩
        = some ({ messages := [] ++ sentMessages envOk "f" 0 0 chunks, sent := 0 + chunks.length },
                .ok { FileID := 7, Parts := [] ++ issuedIDs envOk 0 chunks.length })
      ∧ chunks.flatten = [1, 2, 3]
      ∧ chunks.length = (([1, 2, 3] : Bytes).length + chunkSize - 1) / chunkSize
      ∧ (∀ c ∈ chunks.dropLast, c.length = chunkSize)
      ∧ (∀ c, chunks.getLast? = some c →
          c.length = if ([1, 2, 3] : Bytes).length % chunkSize = 0 then chunkSize
                     else ([1, 2, 3] : Bytes).length % chunkSize)
      ∧ (∀ c ∈ chunks, c ≠ [])
      ∧ (([1, 2, 3] : Bytes) = [] → chunks = []) :=
  chunk_splitting envOk "f" [1, 2, 3] ⟨7, []⟩ ⟨[], 0⟩ (fun _ => rfl)

theorem insertPartsLoop_ok (fileID : Int) (ids : List String) :
    ∀ db : DB, ids.Nodup → (∀ p ∈ ids, ∀ r ∈ db.parts, r.part_id ≠ p) →
      insertPartsLoop fileID ids db
        = ({ db with parts := db.parts ++ ids.map (fun p => ⟨p, fileID⟩) }, .ok ()) := by
  induction ids with
  | nil => intro db _ _; simp [insertPartsLoop]
  | cons p rest ih =>
    intro db hnd hfresh
    rw [List.nodup_cons] at hnd
    have h1 : ¬ (db.parts.any (fun r => r.part_id == p) = true) := by
      simp only [List.any_eq_true, beq_iff_eq, not_exists, not_and]
      exact fun r hr => hfresh p (List.mem_cons_self _ _) r hr
    simp only [insertPartsLoop, h1, if_false]
    rw [ih _ hnd.2]
    · simp
    · intro q hq r hr
      simp only [List.mem_append, List.mem_singleton] at hr
      rcases hr with hr | rfl
      · exact hfresh q (List.mem_cons_of_mem _ hq) r hr
      · intro e
        simp only at e
        exact hnd.1 (e ▸ hq)

theorem issuedIDs_nodup (env : Env) (hinj : ∀ i j, env.issue i = env.issue j → i = j)
    (n k : Nat) : (issuedIDs env n k).Nodup := by
  induction k generalizing n with
  | zero => simp [issuedIDs]
  | succ k ih =>
    simp only [issuedIDs, List.nodup_cons]
    refine ⟨?_, ih (n + 1)⟩
    rw [mem_issuedIDs]
    rintro ⟨j, _, e⟩
    have := hinj _ _ e
    omega

/-- `Upload` when no send fails, the backend gives different messages different
ids, and the ids it gives from now on are not in the `parts` table: the File
row and one Part row per chunk are added, and the channel gets the chunks. -/
theorem upload_ok (env : Env) (db : DB) (dc : Discord) (name : String) (content : Bytes)
    (groupID : Int) (hsend : ∀ n, env.sendFails n = false)
    (hinj : ∀ i j, env.issue i = env.issue j → i = j)
    (hrows : ∀ r ∈ db.parts, ∀ j, r.part_id ≠ env.issue (dc.sent + j)) :
    ∃ chunks : List Bytes,
      Upload env db dc name content groupID
        = some ({ db with
                    files := db.files ++
                      [{ ID := nextKey db.fileSeq (db.files.map (·.ID)),
                         toLocal := { Name := name, Total_parts := FilePartsCalc content.length,
                                      Size := content.length, Hash := env.sha256 content,
                                      GroupID := groupID } }],
                    fileSeq := nextKey db.fileSeq (db.files.map (·.ID)),
                    parts := db.parts ++ (issuedIDs env dc.sent chunks.length).map
                      (fun p => ⟨p, nextKey db.fileSeq (db.files.map (·.ID))⟩) },
                { messages := dc.messages ++ sentMessages env name 0 dc.sent chunks,
                  sent := dc.sent + chunks.length },
                .ok ())
      ∧ chunks.flatten = content
      ∧ chunks.length = (content.length + chunkSize - 1) / chunkSize := by
  obtain ⟨chunks, h1, h2, h3, -⟩ := chunkLoop_ok env name hsend (content.length + 1) 0 content
    { FileID := nextKey db.fileSeq (db.files.map (·.ID)), Parts := [] } dc (by omega)
  refine ⟨chunks, ?_, h2, h3⟩
  simp only [Upload, RegisterFileEntry, h1, InsertParts, List.nil_append]
  rw [insertPartsLoop_ok _ _ _ (issuedIDs_nodup env hinj _ _)]
  intro p hp r hr
  obtain ⟨j, _, rfl⟩ := (mem_issuedIDs env _ _ p).mp hp
  exact hrows r hr j

/-! ## Round trip -/

theorem issue_injective (env : Env) (hasc : ∀ i j, i < j → idLt (env.issue i) (env.issue j)) :
    ∀ i j, env.issue i = env.issue j → i = j := by
  intro i j e
  rcases Nat.lt_trichotomy i j with h | h | h
  · exact absurd e (hasc i j h).2
  · exact h
  · exact absurd e.symm (hasc j i h).2

theorem issuedIDs_sorted (env : Env) (hasc : ∀ i j, i < j → idLt (env.issue i) (env.issue j))
    (n k : Nat) : (issuedIDs env n k).Sorted idLe := by
  induction k generalizing n with
  | zero => simp [issuedIDs]
  | succ k ih =>
    simp only [issuedIDs, List.sorted_cons]
    refine ⟨?_, ih (n + 1)⟩
    intro p hp
    obtain ⟨j, _, rfl⟩ := (mem_issuedIDs env _ _ p).mp hp
    exact (hasc n (n + 1 + j) (by omega)).1

/-- Downloading the ids of the chunk messages from a channel that holds them after
messages with other ids gives back the chunks in order. -/
theorem downloadLoop_sent (env : Env) (name : String) (hfetch : ∀ p, env.fetchFails p = false)
    (hinj : ∀ i j, env.issue i = env.issue j → i = j) (chunks : List Bytes) :
    ∀ (pre : List Message) (i n s : Nat) (out : Bytes),
      (∀ m ∈ pre, ∀ j, m.ID ≠ env.issue (n + j)) →
      downloadLoop env { messages := pre ++ sentMessages env name i n chunks, sent := s }
          (issuedIDs env n chunks.length) out
        = (out ++ chunks.flatten, .ok ()) := by
  induction chunks with
  | nil => intro pre i n s out _; simp [issuedIDs, downloadLoop]
  | cons c cs ih =>
    intro pre i n s out hpre
    have hfind : (pre ++ sentMessages env name i n (c :: cs)).find? (fun m => m.ID == env.issue n)
        = some { ID := env.issue n, Attachments := [(chunkPath env name i, c)] } := by
      rw [List.find?_append]
      have : pre.find? (fun m => m.ID == env.issue n) = none := by
        rw [List.find?_eq_none]
        intro m hm
        simpa using hpre m hm 0
      simp [this, sentMessages]
    simp only [List.length_cons, issuedIDs, downloadLoop, DownloadPart, hfetch, hfind]
    have hstep := ih (pre ++ [{ ID := env.issue n, Attachments := [(chunkPath env name i, c)] }])
      (i + 1) (n + 1) s (out ++ c) (by
        intro m hm j
        simp only [List.mem_append, List.mem_singleton] at hm
        rcases hm with hm | rfl
        · have := hpre m hm (1 + j)
          rwa [show n + (1 + j) = n + 1 + j by omega] at this
        · intro e
          have := hinj _ _ e
          omega)
    simp only [List.append_assoc, List.singleton_append] at hstep
    simp only [Bool.false_eq_true, if_false, sentMessages]
    rw [hstep]
    simp

/-- C1. Let the backend store every chunk and fetch every part (no send and no
fetch fails), let the ids it gives be strictly ascending in lexicographic order
in the order of the sends, let no message of the channel and no row of `parts`
carry an id the backend is still to give, and let `parts` hold no row for the
file id `Upload` is about to assign. Then `Upload` returns without error,
registers the File row under that id, and `DownloadAndReassembleFile` of that id
writes exactly the bytes of the file. -/
theorem round_trip (env : Env) (db : DB) (dc : Discord) (name : String) (content : Bytes)
    (groupID : Int)
    (hsend : ∀ n, env.sendFails n = false) (hfetch : ∀ p, env.fetchFails p = false)
    (hasc : ∀ i j, i < j → idLt (env.issue i) (env.issue j))
    (hchan : ∀ m ∈ dc.messages, ∀ j, m.ID ≠ env.issue (dc.sent + j))
    (hrows : ∀ r ∈ db.parts, ∀ j, r.part_id ≠ env.issue (dc.sent + j))
    (hnew : ∀ r ∈ db.parts, r.file_id ≠ nextKey db.fileSeq (db.files.map (·.ID))) :
    ∃ db1 dc1 f, Upload env db dc name content groupID = some (db1, dc1, .ok ())
      ∧ f ∈ db1.files ∧ f.ID = nextKey db.fileSeq (db.files.map (·.ID))
      ∧ f.toLocal.Name = name
      ∧ DownloadAndReassembleFile env db1 dc1 (nextKey db.fileSeq (db.files.map (·.ID)))
          = (content, .ok ()) := by
  have hinj := issue_injective env hasc
  obtain ⟨chunks, hup, hflat, -⟩ := upload_ok env db dc name content groupID hsend hinj hrows
  refine ⟨_, _, { ID := nextKey db.fileSeq (db.files.map (·.ID)),
                  toLocal := { Name := name, Total_parts := FilePartsCalc content.length,
                               Size := content.length, Hash := env.sha256 content,
                               GroupID := groupID } }, hup, ?_, rfl, rfl, ?_⟩
  · simp
  · have hids : GetPartIDs
        { db with
            files := db.files ++
              [{ ID := nextKey db.fileSeq (db.files.map (·.ID)),
                 toLocal := { Name := name, Total_parts := FilePartsCalc content.length,
                              Size := content.length, Hash := env.sha256 content,
                              GroupID := groupID } }],
            fileSeq := nextKey db.fileSeq (db.files.map (·.ID)),
            parts := db.parts ++ (issuedIDs env dc.sent chunks.length).map
              (fun p => ⟨p, nextKey db.fileSeq (db.files.map (·.ID))⟩) }
        (nextKey db.fileSeq (db.files.map (·.ID))) = issuedIDs env dc.sent chunks.length := by
      unfold GetPartIDs
      have h1 : db.parts.filter (fun r => r.file_id == nextKey db.fileSeq (db.files.map (·.ID)))
          = [] := by
        rw [List.filter_eq_nil_iff]
        intro r hr
        simpa using hnew r hr
      have h2 : ((issuedIDs env dc.sent chunks.length).map
          (fun p => (⟨p, nextKey db.fileSeq (db.files.map (·.ID))⟩ : PartRow))).filter
            (fun r => r.file_id == nextKey db.fileSeq (db.files.map (·.ID)))
          = (issuedIDs env dc.sent chunks.length).map
              (fun p => (⟨p, nextKey db.fileSeq (db.files.map (·.ID))⟩ : PartRow)) := by
        rw [List.filter_eq_self]
        intro r hr
        obtain ⟨p, _, rfl⟩ := List.mem_map.mp hr
        simp
      simp only [List.filter_append, h1, h2, List.nil_append, List.map_map]
      have h3 : ((fun r : PartRow => r.part_id) ∘
          fun p => (⟨p, nextKey db.fileSeq (db.files.map (·.ID))⟩ : PartRow)) = id := rfl
      rw [h3, List.map_id]
      exact (issuedIDs_sorted env hasc _ _).insertionSort_eq
    unfold DownloadAndReassembleFile
    rw [hids, downloadLoop_sent env name hfetch hinj chunks dc.messages 0 dc.sent _ [] hchan, hflat]
    simp

theorem lexLe_replicate (x i j : Nat) (h : i ≤ j) :
    lexLe (List.replicate i x) (List.replicate j x) = true := by
  induction i generalizing j with
  | zero => simp [lexLe]
  | succ i ih =>
    obtain ⟨k, rfl⟩ : ∃ k, j = k + 1 := ⟨j - 1, by omega⟩
    simp only [List.replicate_succ, lexLe, lt_self_iff_false, decide_False, decide_True,
      Bool.true_and, Bool.false_or]
    exact ih k (by omega)

theorem envOk_issue_injective : ∀ i j, envOk.issue i = envOk.issue j → i = j := by
  intro i j e
  have h := congrArg String.length e
  simp only [envOk, String.length, List.length_replicate] at h
  omega

theorem envOk_ascending : ∀ i j, i < j → idLt (envOk.issue i) (envOk.issue j) := by
  intro i j h
  refine ⟨?_, fun e => ?_⟩
  · simp only [idLe, idKey, envOk, List.map_replicate]
    exact lexLe_replicate _ _ _ (by omega)
  · have := envOk_issue_injective i j e
    omega

theorem round_trip_witness :
    ∃ db1 dc1 f, Upload envOk dbAfterOne dcAfterOne "g" [1, 2, 3] 1 = some (db1, dc1, .ok ())
      ∧ f ∈ db1.files ∧ f.ID = nextKey dbAfterOne.fileSeq (dbAfterOne.files.map (·.ID))
      ∧ f.toLocal.Name = "g"
      ∧ DownloadAndReassembleFile envOk db1 dc1
          (nextKey dbAfterOne.fileSeq (dbAfterOne.files.map (·.ID))) = ([1, 2, 3], .ok ()) :=
  round_trip envOk dbAfterOne dcAfterOne "g" [1, 2, 3] 1 (fun _ => rfl) (fun _ => rfl)
    envOk_ascending
    (by
      intro m hm j e
      simp only [dcAfterOne, List.mem_singleton] at hm
      subst hm
      have := envOk_issue_injective 0 (1 + j) e
      omega)
    (by
      intro r hr j e
      simp only [dbAfterOne, List.mem_singleton] at hr
      subst hr
      have := envOk_issue_injective 0 (1 + j) e
      omega)
    (by decide)

/-! ## Part count -/

/-- C3, the code at the failing input. For a file of 9007199263129601 bytes
(`343597384 * chunkSize + 1`) the conversion to `float64` drops the last byte, so
`FilePartsCalc` gives 343597384 where `ceil(S / chunkSize)` is 343597385; the
same happens without a rounding tie at 18014398526259201. The examples of the
claim, 0 bytes and 60 MiB, come out as 0 and 3. -/
theorem file_parts_calc_rounding :
    FilePartsCalc 9007199263129601 = 343597384
    ∧ (9007199263129601 + chunkSize - 1) / chunkSize = 343597385
    ∧ FilePartsCalc 18014398526259201 = 687194768
    ∧ (18014398526259201 + chunkSize - 1) / chunkSize = 687194769
    ∧ FilePartsCalc 0 = 0 ∧ FilePartsCalc (60 * 1024 * 1024) = 3 := by
  decide

/-- C4, the code at the failing input. Uploading a file of 9007199263129601 bytes
into the fresh store, with no failing call, returns without error and leaves
343597385 Part rows for the new file, whose File row says `total_parts` is
343597384. -/
theorem upload_part_count_mismatch :
    ∃ db1 dc1, Upload envOk initDB ⟨[], 0⟩ "big" (List.replicate 9007199263129601 0) 1
        = some (db1, dc1, .ok ())
      ∧ (db1.parts.filter (fun r => r.file_id == 1)).length = 343597385
      ∧ db1.files = [{ ID := 1, toLocal := { Name := "big", Total_parts := 343597384,
                                              Size := 9007199263129601, Hash := "",
                                              GroupID := 1 } }] := by
  obtain ⟨chunks, hup, -, hlen⟩ := upload_ok envOk initDB ⟨[], 0⟩ "big"
    (List.replicate 9007199263129601 0) 1 (fun _ => rfl) envOk_issue_injective
    (by intro r hr; simp [initDB] at hr)
  have hS : (List.replicate 9007199263129601 (0 : UInt8)).length = 9007199263129601 :=
    List.length_replicate _ _
  have hcount : chunks.length = 343597385 := by
    rw [hlen, hS]
    decide
  have hcalc : FilePartsCalc ((List.replicate 9007199263129601 (0 : UInt8)).length : Nat)
      = 343597384 := by
    rw [hS]
    decide
  refine ⟨_, _, hup, ?_, ?_⟩
  · have hkey : nextKey initDB.fileSeq (initDB.files.map (·.ID)) = 1 := by decide
    simp only [hkey]
    simp only [initDB, List.nil_append]
    rw [List.filter_eq_self.mpr]
    · simp [issuedIDs_length, hcount]
    · intro r hr
      obtain ⟨p, _, rfl⟩ := List.mem_map.mp hr
      simp
  · have hkey : nextKey initDB.fileSeq (initDB.files.map (·.ID)) = 1 := by decide
    simp only [hkey, hcalc, hS]
    rfl

/-- Part count law for files below `2 ^ 53` bytes: after an `Upload` as in
`upload_ok`, into a store with no Part row for the new file id, the number of Part
rows of the new file is the `total_parts` of its File row, and both are
`ceil(S / chunkSize)`. -/
theorem upload_part_count (env : Env) (db : DB) (dc : Discord) (name : String)
    (content : Bytes) (groupID : Int) (hsize : content.length < 2 ^ 53)
    (hsend : ∀ n, env.sendFails n = false)
    (hinj : ∀ i j, env.issue i = env.issue j → i = j)
    (hrows : ∀ r ∈ db.parts, ∀ j, r.part_id ≠ env.issue (dc.sent + j))
    (hnew : ∀ r ∈ db.parts, r.file_id ≠ nextKey db.fileSeq (db.files.map (·.ID))) :
    ∃ db1 dc1 f, Upload env db dc name content groupID = some (db1, dc1, .ok ())
      ∧ f ∈ db1.files ∧ f.ID = nextKey db.fileSeq (db.files.map (·.ID))
      ∧ ((db1.parts.filter
            (fun r => r.file_id == nextKey db.fileSeq (db.files.map (·.ID)))).length : Int)
          = f.toLocal.Total_parts
      ∧ f.toLocal.Total_parts = (((content.length + chunkSize - 1) / chunkSize : Nat) : Int) := by
  obtain ⟨chunks, hup, -, hlen⟩ := upload_ok env db dc name content groupID hsend hinj hrows
  refine ⟨_, _, { ID := nextKey db.fileSeq (db.files.map (·.ID)),
                  toLocal := { Name := name, Total_parts := FilePartsCalc content.length,
                               Size := content.length, Hash := env.sha256 content,
                               GroupID := groupID } }, hup, by simp, rfl, ?_, ?_⟩
  · have h1 : db.parts.filter (fun r => r.file_id == nextKey db.fileSeq (db.files.map (·.ID)))
        = [] := by
      rw [List.filter_eq_nil_iff]
      intro r hr
      simpa using hnew r hr
    simp only [List.filter_append, h1, List.nil_append]
    rw [List.filter_eq_self.mpr]
    · simp only [List.length_map, issuedIDs_length, hlen]
      exact (FilePartsCalc_exact _ hsize).symm
    · intro r hr
      obtain ⟨p, _, rfl⟩ := List.mem_map.mp hr
      simp
  · exact FilePartsCalc_exact _ hsize

/-! ## Not-found and failure paths -/

/-- C11. For a name that no group has, `deleteGroup` reports not-found for that
name, whatever the bound on the recursion, and returns the store as it was: every
Group row, File row and Part row is unchanged, and nothing is deleted. -/
theorem delete_group_not_found (fuel : Nat) (db : DB) (name : String)
    (h : ∀ g ∈ db.groups, g.group_name ≠ name) :
    deleteGroup fuel db name = some (db, [], GroupMsg.notFound name) := by
  have h1 := (fetchGroupIDByName_none db name).mpr h
  simp [deleteGroup, h1]

theorem delete_group_not_found_witness :
    deleteGroup 0 dbBooks "missing" = some (dbBooks, [], GroupMsg.notFound "missing") :=
  delete_group_not_found 0 dbBooks "missing" (by decide)

theorem FetchFileNameByID_none (db : DB) (id : Int) (h : ∀ f ∈ db.files, f.ID ≠ id) :
    FetchFileNameByID db id = .error (.noFileFound id) := by
  have : db.files.find? (fun f => f.ID == id) = none := by
    rw [List.find?_eq_none]
    intro f hf
    simpa using h f hf
  simp [FetchFileNameByID, this]

/-- C12. For a file id that has no File row, the download command
(`runDownloadCmd`) ends with the not-found error of `FetchFileNameByID` for that
id, before `DownloadAndReassembleFile` is called: no output file is created. -/
theorem download_not_found (env : Env) (db : DB) (dc : Discord) (fileID : Int)
    (h : ∀ f ∈ db.files, f.ID ≠ fileID) :
    runDownloadCmd env db dc fileID = (none, .error (.noFileFound fileID)) := by
  simp [runDownloadCmd, FetchFileNameByID_none db fileID h]

theorem download_not_found_witness :
    runDownloadCmd envOk dbTwoParts dcTwoParts 999 = (none, .error (.noFileFound 999)) :=
  download_not_found envOk dbTwoParts dcTwoParts 999 (by decide)

/-- The check for the File row is made by the command only:
`DownloadAndReassembleFile` itself, for an id with no File row and no Part row,
writes an empty output and returns no error. -/
theorem download_core_no_file_check (env : Env) (db : DB) (dc : Discord) (fileID : Int)
    (hparts : ∀ r ∈ db.parts, r.file_id ≠ fileID) :
    DownloadAndReassembleFile env db dc fileID = ([], .ok ()) := by
  unfold DownloadAndReassembleFile
  rw [GetPartIDs_nil db fileID hparts]
  rfl

theorem downloadLoopTraced_eq (env : Env) (dc : Discord) (ids : List String) :
    ∀ (out : Bytes) (calls : List String),
      ((downloadLoopTraced env dc ids out calls).1, (downloadLoopTraced env dc ids out calls).2.2)
        = downloadLoop env dc ids out := by
  induction ids with
  | nil => intro out calls; rfl
  | cons p rest ih =>
    intro out calls
    cases h : DownloadPart env dc p with
    | error e => simp [downloadLoopTraced, downloadLoop, h]
    | ok data =>
      simp only [downloadLoopTraced, downloadLoop, h]
      exact ih _ _

theorem downloadLoopTraced_fail (env : Env) (dc : Discord) (data : String → Bytes)
    (pre : List String) (pk : String) (post : List String)
    (hpre : ∀ p ∈ pre, DownloadPart env dc p = .ok (data p))
    (hfail : ∃ e, DownloadPart env dc pk = .error e) :
    ∀ (out : Bytes) (calls : List String),
      downloadLoopTraced env dc (pre ++ pk :: post) out calls
        = (out ++ pre.flatMap data, calls ++ pre ++ [pk], .error (.downloadPart pk)) := by
  induction pre with
  | nil =>
    intro out calls
    obtain ⟨e, he⟩ := hfail
    simp [downloadLoopTraced, he]
  | cons p rest ih =>
    intro out calls
    have hp := hpre p (List.mem_cons_self _ _)
    simp only [List.cons_append, downloadLoopTraced, hp, List.append_eq]
    rw [ih (fun q hq => hpre q (List.mem_cons_of_mem _ hq))]
    simp [List.flatMap_cons]

/-- C13. Let the parts of the file be `pre ++ pk :: post` in the ascending order
`GetPartIDs` returns them, let the fetch of every part of `pre` succeed (`data p`
being the bytes fetched) and the fetch of `pk` fail. Then
`DownloadAndReassembleFile` returns the error naming `pk`, the output holds
exactly the bytes of `pre` concatenated, and `app.DownloadPart` was called for
`pre` and `pk` in that order and for no part of `post`. -/
theorem download_fetch_failure (env : Env) (db : DB) (dc : Discord) (fileID : Int)
    (data : String → Bytes) (pre : List String) (pk : String) (post : List String)
    (hids : GetPartIDs db fileID = pre ++ pk :: post)
    (hpre : ∀ p ∈ pre, DownloadPart env dc p = .ok (data p))
    (hfail : ∃ e, DownloadPart env dc pk = .error e) :
    DownloadAndReassembleFile env db dc fileID = (pre.flatMap data, .error (.downloadPart pk))
    ∧ downloadLoopTraced env dc (GetPartIDs db fileID) [] []
        = (pre.flatMap data, pre ++ [pk], .error (.downloadPart pk))
    ∧ (pre ++ pk :: post).Sorted idLe := by
  have h1 := downloadLoopTraced_fail env dc data pre pk post hpre hfail [] []
  simp only [List.nil_append] at h1
  refine ⟨?_, by rw [hids, h1], hids ▸ GetPartIDs_sorted db fileID⟩
  unfold DownloadAndReassembleFile
  rw [← downloadLoopTraced_eq env dc _ [] [], hids, h1]

theorem download_fetch_failure_witness :
    DownloadAndReassembleFile envFetchFailB dbThreeParts dcThreeParts 1
        = (["a"].flatMap (fun _ => [1]), .error (.downloadPart "b"))
    ∧ downloadLoopTraced envFetchFailB dcThreeParts (GetPartIDs dbThreeParts 1) [] []
        = (["a"].flatMap (fun _ => [1]), ["a"] ++ ["b"], .error (.downloadPart "b"))
    ∧ (["a"] ++ "b" :: ["c"]).Sorted idLe :=
  download_fetch_failure envFetchFailB dbThreeParts dcThreeParts 1 (fun _ => [1]) ["a"] "b" ["c"]
    (by decide) (by decide) ⟨.downloadPart "b", by decide⟩

/-- The chunk loop when send call number `k` from now is the first to fail and the
source has a chunk number `k` (counting from 0): the `k` chunks before it, each
of `chunkSize` bytes, are in the channel and the loop returns the error of chunk
`k`. -/
theorem chunkLoop_fail (env : Env) (name : String) (k : Nat) :
    ∀ (fuel i : Nat) (rest : Bytes) (fileParts : Parts) (dc : Discord),
      rest.length < fuel → k * chunkSize < rest.length →
      (∀ j, j < k → env.sendFails (dc.sent + j) = false) →
      env.sendFails (dc.sent + k) = true →
      ∃ chunks : List Bytes,
        chunkLoop env name fuel i rest fileParts dc
          = some ({ messages := dc.messages ++ sentMessages env name i dc.sent chunks,
                    sent := dc.sent + k + 1 },
                  .error (.uploadChunk (chunkPath env name (i + k))))
        ∧ chunks.length = k
        ∧ chunks.flatten = rest.take (k * chunkSize)
        ∧ (∀ c ∈ chunks, c.length = chunkSize) := by
  have hC := chunkSize_pos
  induction k with
  | zero =>
    intro fuel i rest fileParts dc hfuel hlen _ hfail
    obtain ⟨f, rfl⟩ : ∃ f, fuel = f + 1 := ⟨fuel - 1, by omega⟩
    have hlt : (rest.take chunkSize).length = min chunkSize rest.length := List.length_take _ _
    have h0 : ¬ (rest.take chunkSize).length = 0 := by omega
    refine ⟨[], ?_, rfl, by simp, by simp⟩
    simp only [Nat.add_zero] at hfail
    have hrne : rest ≠ [] := fun e => by simp [e] at hlen
    have hCne : chunkSize ≠ 0 := by omega
    simp [chunkLoop, h0, UploadFile, ChannelMessageSendComplex, hfail, sentMessages, hrne, hCne]
  | succ k ih =>
    intro fuel i rest fileParts dc hfuel hlen hok hfail
    obtain ⟨f, rfl⟩ : ∃ f, fuel = f + 1 := ⟨fuel - 1, by omega⟩
    have hmul : (k + 1) * chunkSize = chunkSize + k * chunkSize := by ring
    have hlt : (rest.take chunkSize).length = min chunkSize rest.length := List.length_take _ _
    have hfull : (rest.take chunkSize).length = chunkSize := by omega
    have h0 : ¬ (rest.take chunkSize).length = 0 := by omega
    have h1 : ¬ (rest.take chunkSize).length < chunkSize := by omega
    have hdrop : (rest.drop chunkSize).length = rest.length - chunkSize := List.length_drop _ _
    have hsend0 : env.sendFails dc.sent = false := by simpa using hok 0 (by omega)
    obtain ⟨chunks, hrun, hcount, hflat, hsize⟩ :=
      ih f (i + 1) (rest.drop chunkSize)
        { FileID := fileParts.FileID, Parts := fileParts.Parts ++ [env.issue dc.sent] }
        { messages := dc.messages ++
            [{ ID := env.issue dc.sent,
               Attachments := [(chunkPath env name i, rest.take chunkSize)] }],
          sent := dc.sent + 1 } (by omega) (by omega)
        (by
          intro j hj
          have := hok (j + 1) (by omega)
          simpa [Nat.add_assoc, Nat.add_comm 1] using this)
        (by simpa [Nat.add_assoc, Nat.add_comm 1] using hfail)
    refine ⟨rest.take chunkSize :: chunks, ?_, by simp [hcount], ?_, ?_⟩
    · dsimp only at hrun
      simp only [chunkLoop, h0, if_false, UploadFile, ChannelMessageSendComplex, hsend0, h1,
        sentMessages]
      simp only [Bool.false_eq_true, if_false, hrun]
      simp [Nat.add_assoc, Nat.add_comm 1]
    · rw [List.flatten_cons, hflat, hmul, List.take_add]
    · intro c hc
      rcases List.mem_cons.mp hc with rfl | hc
      · exact hfull
      · exact hsize c hc

/-- C14. Let the source have a chunk number `k` (counting from 0, so the claim's
chunk `k + 1`), let the sends of the chunks before it succeed and the send of
chunk `k` fail. Then `Upload` returns the error of that chunk; the File row
registered for this upload is in the store; the `parts` table is as it was, so
no Part row was inserted; and the `k` chunks before it, `chunkSize` bytes each,
are in the backend. -/
theorem upload_chunk_failure (env : Env) (db : DB) (dc : Discord) (name : String)
    (content : Bytes) (groupID : Int) (k : Nat)
    (hk : k < (content.length + chunkSize - 1) / chunkSize)
    (hok : ∀ j, j < k → env.sendFails (dc.sent + j) = false)
    (hfail : env.sendFails (dc.sent + k) = true) :
    ∃ db1 dc1 chunks f,
      Upload env db dc name content groupID
        = some (db1, dc1, .error (.uploadChunk (chunkPath env name k)))
      ∧ db1.files = db.files ++ [f]
      ∧ f.ID = nextKey db.fileSeq (db.files.map (·.ID)) ∧ f.toLocal.Name = name
      ∧ db1.parts = db.parts
      ∧ dc1.messages = dc.messages ++ sentMessages env name 0 dc.sent chunks
      ∧ chunks.length = k
      ∧ chunks.flatten = content.take (k * chunkSize)
      ∧ (∀ c ∈ chunks, c.length = chunkSize) := by
  have hlen : k * chunkSize < content.length := by
    have hC : chunkSize = 26214400 := by decide
    rw [hC] at hk ⊢
    omega
  obtain ⟨chunks, hrun, h1, h2, h3⟩ := chunkLoop_fail env name k (content.length + 1) 0 content
    { FileID := nextKey db.fileSeq (db.files.map (·.ID)), Parts := [] } dc (by omega) hlen hok hfail
  refine ⟨{ db with
              files := db.files ++
                [{ ID := nextKey db.fileSeq (db.files.map (·.ID)),
                   toLocal := { Name := name, Total_parts := FilePartsCalc content.length,
                                Size := content.length, Hash := env.sha256 content,
                                GroupID := groupID } }],
              fileSeq := nextKey db.fileSeq (db.files.map (·.ID)) },
    { messages := dc.messages ++ sentMessages env name 0 dc.sent chunks, sent := dc.sent + k + 1 },
    chunks,
    { ID := nextKey db.fileSeq (db.files.map (·.ID)),
      toLocal := { Name := name, Total_parts := FilePartsCalc content.length,
                   Size := content.length, Hash := env.sha256 content, GroupID := groupID } },
    ?_, rfl, rfl, rfl, rfl, rfl, h1, h2, h3⟩
  simp only [Upload, RegisterFileEntry, hrun, Nat.zero_add]

theorem upload_chunk_failure_witness :
    ∃ db1 dc1 chunks f,
      Upload envSendFail1 initDB ⟨[], 0⟩ "f" (List.replicate (chunkSize + 1) 7) 1
        = some (db1, dc1, .error (.uploadChunk (chunkPath envSendFail1 "f" 1)))
      ∧ db1.files = initDB.files ++ [f]
      ∧ f.ID = nextKey initDB.fileSeq (initDB.files.map (·.ID)) ∧ f.toLocal.Name = "f"
      ∧ db1.parts = initDB.parts
      ∧ dc1.messages = (⟨[], 0⟩ : Discord).messages ++ sentMessages envSendFail1 "f" 0 0 chunks
      ∧ chunks.length = 1
      ∧ chunks.flatten = (List.replicate (chunkSize + 1) (7 : UInt8)).take (1 * chunkSize)
      ∧ (∀ c ∈ chunks, c.length = chunkSize) :=
  upload_chunk_failure envSendFail1 initDB ⟨[], 0⟩ "f" (List.replicate (chunkSize + 1) 7) 1 1
    (by rw [List.length_replicate]; decide)
    (by
      intro j hj
      obtain rfl : j = 0 := by omega
      rfl)
    rfl

/-! ## `fetchFiles` -/

theorem mem_leftJoinGroups (db : DB) (f : FilesDB) (g : GroupRow)
    (h : (f, some g) ∈ leftJoinGroups db) :
    f ∈ db.files ∧ g ∈ db.groups ∧ g.group_id = f.toLocal.GroupID := by
  unfold leftJoinGroups at h
  rw [List.mem_flatMap] at h
  obtain ⟨f1, hf1, hrow⟩ := h
  cases hgs : db.groups.filter (fun g => g.group_id == f1.toLocal.GroupID) with
  | nil => simp [hgs] at hrow
  | cons g1 gs =>
    rw [hgs] at hrow
    simp only [List.mem_map, Prod.mk.injEq, Option.some.injEq] at hrow
    obtain ⟨g2, hg2, rfl, rfl⟩ := hrow
    rw [← hgs, List.mem_filter] at hg2
    exact ⟨hf1, hg2.1, by simpa using hg2.2⟩

theorem scanRows_ok (rows : List (FilesDB × Option GroupRow)) :
    ∀ (files res : List listFile), scanRows rows files = .ok res →
      ∃ new, res = files ++ new ∧ new.length = rows.length
        ∧ ∀ lf ∈ new, ∃ row ∈ rows, scanListFile row = .ok lf := by
  induction rows with
  | nil =>
    intro files res h
    simp only [scanRows, Except.ok.injEq] at h
    exact ⟨[], by simp [h], rfl, by simp⟩
  | cons row rest ih =>
    intro files res h
    cases hs : scanListFile row with
    | error e => simp [scanRows, hs] at h
    | ok file =>
      simp only [scanRows, hs] at h
      obtain ⟨new, h1, h2, h3⟩ := ih _ _ h
      refine ⟨file :: new, by simp [h1], by simp [h2], ?_⟩
      intro lf hlf
      rcases List.mem_cons.mp hlf with rfl | hlf
      · exact ⟨row, List.mem_cons_self _ _, hs⟩
      · obtain ⟨r, hr, hr2⟩ := h3 lf hlf
        exact ⟨r, List.mem_cons_of_mem _ hr, hr2⟩

/-- C15, counterexample. With one file named `report` in the store, the searches
`rep_rt` and `REPORT` each return that file, although neither is a substring of
its name: `_` is a wildcard of `LIKE`, and `LIKE` ignores the case of ASCII
letters. -/
theorem fetch_files_substring_counterexample :
    fetchFiles dbReport "rep_rt" 0 0 = .ok [⟨1, "report", 0, 0, "uncategorized"⟩]
    ∧ ¬ ("rep_rt".data <:+: "report".data)
    ∧ fetchFiles dbReport "REPORT" 0 0 = .ok [⟨1, "report", 0, 0, "uncategorized"⟩]
    ∧ ¬ ("REPORT".data <:+: "report".data) := by
  decide

/-- C15, amended. When `fetchFiles` returns a list, it has at most 50 entries, and
every entry is the scan of a File row and of the Group row of its group such
that: the name of the file matches the `LIKE` pattern `%search%` when `search`
is non-empty, the id of the file is `id` when `id` is non-zero, and its group id
is `group` when `group` is non-zero. -/
theorem fetch_files_filters (db : DB) (search : String) (id group : Int) (res : List listFile)
    (h : fetchFiles db search id group = .ok res) :
    res.length ≤ 50
    ∧ ∀ lf ∈ res, ∃ f ∈ db.files, ∃ g ∈ db.groups,
        g.group_id = f.toLocal.GroupID
        ∧ lf = { id := f.ID, name := f.toLocal.Name, size := f.toLocal.Size,
                 parts := f.toLocal.Total_parts, groupName := g.group_name }
        ∧ (search ≠ "" → likeMatch ("%" ++ search ++ "%").data f.toLocal.Name.data = true)
        ∧ (id ≠ 0 → f.ID = id)
        ∧ (group ≠ 0 → f.toLocal.GroupID = group) := by
  unfold fetchFiles at h
  obtain ⟨new, h1, h2, h3⟩ := scanRows_ok _ _ _ h
  simp only [List.nil_append] at h1
  subst h1
  constructor
  · rw [h2, List.length_take]
    exact Nat.min_le_left _ _
  · intro lf hlf
    obtain ⟨row, hrow, hscan⟩ := h3 lf hlf
    have hrow2 := List.mem_of_mem_take hrow
    rw [List.mem_filter] at hrow2
    obtain ⟨hjoin, hwhere⟩ := hrow2
    obtain ⟨f, og⟩ := row
    cases og with
    | none => simp [scanListFile] at hscan
    | some g =>
      obtain ⟨hf, hg, hfg⟩ := mem_leftJoinGroups db f g hjoin
      simp only [scanListFile, Except.ok.injEq] at hscan
      simp only [fetchFilesWhere, Bool.and_eq_true, Bool.or_eq_true, beq_iff_eq,
        Option.map_some', Option.some.injEq] at hwhere
      obtain ⟨⟨hw1, hw2⟩, hw3⟩ := hwhere
      refine ⟨f, hf, g, hg, hfg, hscan.symm, ?_, ?_, ?_⟩
      · intro hs
        rcases hw1 with hw1 | hw1
        · exact absurd hw1 hs
        · exact hw1
      · intro hi
        rcases hw2 with hw2 | hw2
        · exact absurd hw2 hi
        · exact hw2
      · intro hgr
        rcases hw3 with hw3 | hw3
        · exact absurd hw3 hgr
        · rw [← hfg, hw3]

theorem fetch_files_filters_witness :
    ([⟨1, "report", 0, 0, "uncategorized"⟩] : List listFile).length ≤ 50
    ∧ ∀ lf ∈ ([⟨1, "report", 0, 0, "uncategorized"⟩] : List listFile),
        ∃ f ∈ dbReport.files, ∃ g ∈ dbReport.groups,
          g.group_id = f.toLocal.GroupID
          ∧ lf = { id := f.ID, name := f.toLocal.Name, size := f.toLocal.Size,
                   parts := f.toLocal.Total_parts, groupName := g.group_name }
          ∧ ("por" ≠ "" → likeMatch ("%" ++ "por" ++ "%").data f.toLocal.Name.data = true)
          ∧ ((1 : Int) ≠ 0 → f.ID = 1)
          ∧ ((1 : Int) ≠ 0 → f.toLocal.GroupID = 1) :=
  fetch_files_filters dbReport "por" 1 1 _ (by decide)

/-! ## Group commands keep the parent relation free of cycles -/

theorem acyclic_of_parentBelow (db : DB) (h : ParentBelow db) : Acyclic db := by
  have key : ∀ d a, IsDescendant db d a → a < d := by
    intro d a hd
    induction hd with
    | single hc =>
      obtain ⟨g, hg, rfl, hp⟩ := hc
      exact h g hg _ hp
    | tail _ hc ih =>
      obtain ⟨g, hg, rfl, hp⟩ := hc
      exact lt_trans (h g hg _ hp) ih
  intro g hg
  exact lt_irrefl _ (key g g hg)

theorem parentBelow_of_subset (db db1 : DB) (hsub : ∀ g ∈ db1.groups, g ∈ db.groups)
    (h : ParentBelow db) : ParentBelow db1 :=
  fun g hg p hp => h g (hsub g hg) p hp

theorem parentBelow_initDB : ParentBelow initDB := by
  intro g hg p hp
  simp only [initDB, List.mem_singleton] at hg
  subst hg
  simp at hp

theorem parentBelow_InitDatabase (db : DB) (h : ParentBelow db) : ParentBelow (InitDatabase db) := by
  unfold InitDatabase
  split
  · exact h
  · intro g hg p hp
    simp only [List.mem_append, List.mem_singleton] at hg
    rcases hg with hg | rfl
    · exact h g hg p hp
    · simp at hp

theorem parentBelow_insert (db : DB) (name : String) (parentID : Option Int)
    (h : ParentBelow db) (hpar : ∀ p, parentID = some p → ∃ g ∈ db.groups, g.group_id = p) :
    ParentBelow
      { db with
          groups := db.groups ++
            [{ group_id := nextKey db.groupSeq (db.groups.map (·.group_id)),
               group_name := name, parent_group_id := parentID }],
          groupSeq := nextKey db.groupSeq (db.groups.map (·.group_id)) } := by
  intro g hg p hp
  simp only [List.mem_append, List.mem_singleton] at hg
  rcases hg with hg | rfl
  · exact h g hg p hp
  · simp only at hp
    obtain ⟨g1, hg1, rfl⟩ := hpar p hp
    have := maxKey_ge db.groupSeq (db.groups.map (·.group_id)) g1.group_id
      (List.mem_map_of_mem _ hg1)
    simp only [nextKey]
    omega

theorem parentBelow_createGroup (db : DB) (name parentGroup : String) (h : ParentBelow db) :
    ParentBelow (createGroup db name parentGroup).1 := by
  unfold createGroup
  by_cases hp : parentGroup = ""
  · simp only [hp, ne_eq, not_true_eq_false, if_false]
    split
    · exact h
    · exact parentBelow_insert db name none h (by simp)
  · simp only [ne_eq, hp, not_false_eq_true, if_true]
    cases hf : fetchGroupIDByName db parentGroup with
    | none => exact h
    | some id =>
      simp only
      split
      · exact h
      · apply parentBelow_insert db name (some id) h
        intro p hp2
        simp only [Option.some.injEq] at hp2
        subst hp2
        obtain ⟨g, hg, _, hgi⟩ := fetchGroupIDByName_some db parentGroup id hf
        exact ⟨g, hg, hgi⟩

theorem deleteGroup_groups_subset (fuel : Nat) (db : DB) (name : String) (db1 : DB)
    (log : List Int) (msg : GroupMsg) (h : deleteGroup fuel db name = some (db1, log, msg)) :
    ∀ g ∈ db1.groups, g ∈ db.groups := by
  unfold deleteGroup at h
  cases hf : fetchGroupIDByName db name with
  | none =>
    simp only [hf, Option.some.injEq, Prod.mk.injEq] at h
    obtain ⟨rfl, -⟩ := h
    exact fun g hg => hg
  | some t =>
    simp only [hf] at h
    cases hrun : deleteChildGroups fuel t (reassignFiles db t) with
    | none => simp [hrun] at h
    | some r =>
      obtain ⟨db2, log2⟩ := r
      simp only [hrun, Option.some.injEq, Prod.mk.injEq] at h
      obtain ⟨rfl, -⟩ := h
      have hdel := (deleteChildGroups_spec fuel t _ db2 log2 hrun).1
      intro g hg
      simp only [deleteGroupRow, List.mem_filter] at hg
      exact GroupsDeleted_subset hdel g hg.1

theorem parentBelow_applyOp (fuel : Nat) (db db1 : DB) (op : GroupOp) (h : ParentBelow db)
    (hop : applyOp fuel db op = some db1) : ParentBelow db1 := by
  cases op with
  | init =>
    simp only [applyOp, Option.some.injEq] at hop
    exact hop ▸ parentBelow_InitDatabase db h
  | create name parentGroup =>
    simp only [applyOp, Option.some.injEq] at hop
    exact hop ▸ parentBelow_createGroup db name parentGroup h
  | delete name =>
    simp only [applyOp, Option.map_eq_some'] at hop
    obtain ⟨⟨db2, log, msg⟩, hrun, rfl⟩ := hop
    exact parentBelow_of_subset db db2 (deleteGroup_groups_subset fuel db name db2 log msg hrun) h

theorem parentBelow_runOps (fuel : Nat) (ops : List GroupOp) :
    ∀ db db1, ParentBelow db → runOps fuel ops db = some db1 → ParentBelow db1 := by
  induction ops with
  | nil =>
    intro db db1 h hrun
    simp only [runOps, Option.some.injEq] at hrun
    exact hrun ▸ h
  | cons op ops ih =>
    intro db db1 h hrun
    simp only [runOps] at hrun
    cases hop : applyOp fuel db op with
    | none => simp [hop] at hrun
    | some db2 =>
      simp only [hop] at hrun
      exact ih db2 db1 (parentBelow_applyOp fuel db db2 op h hop) hrun

/-- C16. Every store reached from the freshly initialised store by a sequence of
`createGroup` and `deleteGroup` steps, with the statements of `Tables` run
before any of them, has no cycle in the parent relation: no group is its own
ancestor. -/
theorem reachable_acyclic (fuel : Nat) (ops : List GroupOp) (db1 : DB)
    (h : runOps fuel ops initDB = some db1) : Acyclic db1 :=
  acyclic_of_parentBelow db1 (parentBelow_runOps fuel ops initDB db1 parentBelow_initDB h)

theorem reachable_acyclic_witness :
    Acyclic { groups := [⟨1, "uncategorized", none⟩, ⟨4, "Physics", some 1⟩],
              files := [], parts := [], groupSeq := 4, fileSeq := 0 } :=
  reachable_acyclic 5
    [.create "Books" "", .create "Math" "Books", .init, .delete "Books",
     .create "Physics" "uncategorized"] _ (by decide)

/-! ## Order of the deletions of `deleteChildGroups` -/

theorem childrenFirst_append (db : DB) (l m : List Int) :
    ∀ seen, ChildrenFirst db seen (l ++ m)
      ↔ ChildrenFirst db seen l ∧ ChildrenFirst db (seen ++ l) m := by
  induction l with
  | nil => intro seen; simp [ChildrenFirst]
  | cons x l ih =>
    intro seen
    simp only [List.cons_append, ChildrenFirst, List.append_eq, ih, List.append_assoc,
      List.singleton_append, List.nil_append, and_assoc]

/-- The order holds in a larger table once the groups missing from the smaller
one count as seen. -/
theorem childrenFirst_of_deleted (dbE db : DB) (log : List Int)
    (hdel : GroupsDeleted dbE db log) (l : List Int) :
    ∀ seen, ChildrenFirst db seen l → ChildrenFirst dbE (log ++ seen) l := by
  induction l with
  | nil => intro seen _; trivial
  | cons x l ih =>
    intro seen h
    obtain ⟨h1, h2⟩ := h
    refine ⟨?_, ?_⟩
    · intro g hg hp
      by_cases hin : g.group_id ∈ log
      · exact List.mem_append_left _ hin
      · have hgdb : g ∈ db.groups := by
          rw [hdel.1]
          exact List.mem_filter.mpr ⟨hg, by simpa using hin⟩
        exact List.mem_append_right _ (h1 g hgdb hp)
    · have := ih _ h2
      rwa [← List.append_assoc] at this

theorem deleteChildLoop_childrenFirst (recurse : Int → DB → Option (DB × List Int))
    (hrec : ∀ c db db1 l1, recurse c db = some (db1, l1) →
      ChildrenDeleted db db1 c l1 ∧ ChildrenFirst db [] l1)
    (dbE : DB) (cs : List Int) :
    ∀ (db : DB) (log : List Int) (db2 : DB) (log2 : List Int),
      GroupsDeleted dbE db log → ChildrenFirst dbE [] log →
      deleteChildLoop recurse cs db log = some (db2, log2) → ChildrenFirst dbE [] log2 := by
  induction cs with
  | nil =>
    intro db log db2 log2 _ hcf hrun
    simp only [deleteChildLoop, Option.some.injEq, Prod.mk.injEq] at hrun
    exact hrun.2 ▸ hcf
  | cons c rest ih =>
    intro db log db2 log2 hdel hcf hrun
    simp only [deleteChildLoop] at hrun
    cases hr : recurse c db with
    | none => simp [hr] at hrun
    | some r =>
      obtain ⟨db1, l1⟩ := r
      simp only [hr] at hrun
      obtain ⟨⟨hd1, -, hch1, -⟩, hcf1⟩ := hrec c db db1 l1 hr
      have hdel2 : GroupsDeleted dbE (deleteGroupRow (reassignFiles db1 c) c) (log ++ l1 ++ [c]) :=
        GroupsDeleted_trans (GroupsDeleted_trans hdel hd1) (GroupsDeleted_step db1 c)
      refine ih _ _ db2 log2 hdel2 ?_ hrun
      rw [childrenFirst_append, childrenFirst_append]
      refine ⟨⟨hcf, ?_⟩, ?_, trivial⟩
      · have := childrenFirst_of_deleted dbE db log hdel l1 [] hcf1
        simpa using this
      · intro g hg hp
        simp only [List.nil_append]
        by_cases hin : g.group_id ∈ log
        · exact List.mem_append_left _ hin
        · have hgdb : g ∈ db.groups := by
            rw [hdel.1]
            exact List.mem_filter.mpr ⟨hg, by simpa using hin⟩
          exact List.mem_append_right _ (hch1 g hgdb hp)

theorem deleteChildGroups_childrenFirst (fuel : Nat) :
    ∀ p db db1 log, deleteChildGroups fuel p db = some (db1, log) → ChildrenFirst db [] log := by
  induction fuel with
  | zero => intro p db db1 log h; simp [deleteChildGroups] at h
  | succ fuel ih =>
    intro p db db1 log h
    simp only [deleteChildGroups] at h
    exact deleteChildLoop_childrenFirst (deleteChildGroups fuel)
      (fun c db db1 l1 hr => ⟨deleteChildGroups_spec fuel c db db1 l1 hr, ih c db db1 l1 hr⟩)
      db (childGroupIDs db p) db [] db1 log (GroupsDeleted_refl db) trivial h

/-- With the children of every group before it in the log, so are all the groups
below it. -/
theorem descendants_before (db : DB) (log : List Int) (h : ChildrenFirst db [] log)
    (l1 : List Int) (x : Int) (l2 : List Int) (hlog : log = l1 ++ x :: l2)
    (d : Int) (hd : IsDescendant db d x) : d ∈ l1 := by
  have hchild : ∀ (a : List Int) (y : Int) (b : List Int), log = a ++ y :: b →
      ∀ g ∈ db.groups, g.parent_group_id = some y → g.group_id ∈ a := by
    intro a y b e g hg hp
    rw [e, childrenFirst_append] at h
    have := h.2.1 g hg hp
    simpa using this
  induction hd using Relation.TransGen.head_induction_on with
  | base hc =>
    obtain ⟨g, hg, rfl, hp⟩ := hc
    exact hchild l1 x l2 hlog g hg hp
  | ih hc _ hmem =>
    obtain ⟨g, hg, rfl, hp⟩ := hc
    obtain ⟨a, b, rfl⟩ := List.append_of_mem hmem
    have := hchild a _ (b ++ x :: l2) (by rw [hlog]; simp) g hg hp
    exact List.mem_append_left _ this

/-- C17. On a group table without a cycle the descendant relation is
well-founded, and for every group id `p` the recursion of `deleteChildGroups`
returns once the bound on its depth is large enough; the groups it deleted are
exactly the groups below `p`, and in the order of the deletions every group
comes after all the groups below it. -/
theorem delete_child_groups_order (db : DB) (hacyc : Acyclic db) (p : Int) :
    WellFounded (fun d a => IsDescendant db d a)
    ∧ ∃ n, ∀ fuel, n ≤ fuel → ∃ db1 log,
        deleteChildGroups fuel p db = some (db1, log)
        ∧ (∀ x, x ∈ log ↔ IsDescendant db x p)
        ∧ (∀ l1 x l2, log = l1 ++ x :: l2 → ∀ d, IsDescendant db d x → d ∈ l1) := by
  refine ⟨(wellFounded_of_acyclic db hacyc).transGen, ?_⟩
  obtain ⟨n, hn⟩ := deleteChildGroups_terminates db hacyc p
  refine ⟨n, fun fuel hfuel => ?_⟩
  have hsome := hn fuel hfuel db (fun g hg => hg)
  cases hrun : deleteChildGroups fuel p db with
  | none => simp [hrun] at hsome
  | some r =>
    obtain ⟨db1, log⟩ := r
    obtain ⟨-, hdesc, hch, hcl⟩ := deleteChildGroups_spec fuel p db db1 log hrun
    refine ⟨db1, log, rfl, fun x => ⟨hdesc x, descendant_mem_log db p log hch hcl x⟩, ?_⟩
    intro l1 x l2 hlog d hd
    exact descendants_before db log (deleteChildGroups_childrenFirst fuel p db db1 log hrun)
      l1 x l2 hlog d hd

theorem delete_child_groups_order_witness :
    WellFounded (fun d a => IsDescendant dbBooks d a)
    ∧ ∃ n, ∀ fuel, n ≤ fuel → ∃ db1 log,
        deleteChildGroups fuel 2 dbBooks = some (db1, log)
        ∧ (∀ x, x ∈ log ↔ IsDescendant dbBooks x 2)
        ∧ (∀ l1 x l2, log = l1 ++ x :: l2 → ∀ d, IsDescendant dbBooks d x → d ∈ l1) :=
  delete_child_groups_order dbBooks dbBooks_acyclic 2

/-- On the table `dbCycle`, whose groups 2 and 3 are each other's parent, the
recursion reaches every bound: `deleteChildGroups` does not return. -/
theorem deleteChildGroups_cycle_diverges (fuel : Nat) :
    deleteChildGroups fuel 2 dbCycle = none ∧ deleteChildGroups fuel 3 dbCycle = none := by
  induction fuel with
  | zero => exact ⟨rfl, rfl⟩
  | succ fuel ih =>
    have h2 : childGroupIDs dbCycle 2 = [3] := by decide
    have h3 : childGroupIDs dbCycle 3 = [2] := by decide
    constructor
    · simp only [deleteChildGroups, h2, deleteChildLoop, ih.2]
    · simp only [deleteChildGroups, h3, deleteChildLoop, ih.1]

/-! ## Frames -/

theorem moveToRoot_congr (l1 l2 : List Int) (h : ∀ x, x ∈ l1 ↔ x ∈ l2) (f : FilesDB) :
    moveToRoot l1 f = moveToRoot l2 f := by
  unfold moveToRoot
  by_cases h1 : f.toLocal.GroupID ∈ l1
  · rw [if_pos h1, if_pos ((h _).mp h1)]
  · rw [if_neg h1, if_neg (fun h2 => h1 ((h _).mpr h2))]

/-- What `deleteGroup` does to the store when the name resolves to `t` and the
recursion returns: the groups of the log are gone, their files are in group 1,
and the log holds `t` and the groups below `t`, nothing else. -/
theorem deleteGroup_result (fuel : Nat) (db : DB) (name : String) (t : Int) (db1 : DB)
    (log : List Int) (msg : GroupMsg)
    (hres : fetchGroupIDByName db name = some t)
    (hrun : deleteGroup fuel db name = some (db1, log, msg)) :
    msg = GroupMsg.deleted
    ∧ (∀ x, x ∈ log ↔ x = t ∨ IsDescendant db x t)
    ∧ db1.groups = db.groups.filter (fun g => decide (g.group_id ∉ log))
    ∧ db1.files = db.files.map (moveToRoot log)
    ∧ db1.parts = db.parts ∧ db1.groupSeq = db.groupSeq ∧ db1.fileSeq = db.fileSeq := by
  unfold deleteGroup at hrun
  simp only [hres] at hrun
  cases hdcg : deleteChildGroups fuel t (reassignFiles db t) with
  | none => simp [hdcg] at hrun
  | some r =>
    obtain ⟨db2, log2⟩ := r
    simp only [hdcg, Option.some.injEq, Prod.mk.injEq] at hrun
    obtain ⟨rfl, rfl, rfl⟩ := hrun
    obtain ⟨hdel, hdesc, hch, hcl⟩ := deleteChildGroups_spec fuel t _ db2 log2 hdcg
    have hmem : ∀ x, x ∈ log2 ↔ IsDescendant db x t :=
      fun x => ⟨hdesc x, descendant_mem_log (reassignFiles db t) t log2 hch hcl x⟩
    refine ⟨rfl, ?_, ?_, ?_, hdel.2.2.1, hdel.2.2.2.1, hdel.2.2.2.2⟩
    · intro x
      simp only [List.mem_append, List.mem_singleton, hmem]
      exact or_comm
    · simp only [deleteGroupRow]
      rw [hdel.1]
      simp only [reassignFiles, List.filter_filter]
      congr 1
      funext g
      by_cases h1 : g.group_id = t <;> by_cases h2 : g.group_id ∈ log2 <;> simp [h1, h2]
    · simp only [deleteGroupRow]
      rw [hdel.2.1]
      simp only [reassignFiles, List.map_map]
      congr 1
      funext f
      have h1 := moveToRoot_moveToRoot [t] log2 f
      have h2 := moveToRoot_congr ([t] ++ log2) (log2 ++ [t])
        (fun x => by simp only [List.mem_append, List.mem_singleton]; exact or_comm) f
      rw [← h2, ← h1]
      simp [moveToRoot]

/-- C18. On a group table without a cycle, for a name that resolves to a group
`t`, `deleteGroup` returns once the bound on the recursion depth is large enough,
and in the store it leaves: the `groups` table is the old one without the rows
of `t` and of the groups below `t`, so every other group row is there unchanged
and none is new; the `files` table is the old one, row by row, with `group_id`
set to 1 exactly in the rows that referenced `t` or a group below `t`, every
other row and every other field being as before; the `parts` table is as
before. -/
theorem delete_group_frame (db : DB) (name : String) (t : Int) (hacyc : Acyclic db)
    (hres : fetchGroupIDByName db name = some t) :
    ∃ n, ∀ fuel, n ≤ fuel → ∃ db1 log,
      deleteGroup fuel db name = some (db1, log, GroupMsg.deleted)
      ∧ (∀ x, x ∈ log ↔ x = t ∨ IsDescendant db x t)
      ∧ db1.groups = db.groups.filter (fun g => decide (g.group_id ∉ log))
      ∧ (∀ g ∈ db.groups, g.group_id ≠ t → ¬ IsDescendant db g.group_id t → g ∈ db1.groups)
      ∧ db1.files = db.files.map
          (fun f => if f.toLocal.GroupID ∈ log then
                      { f with toLocal := { f.toLocal with GroupID := 1 } }
                    else f)
      ∧ (∀ f ∈ db.files, f.toLocal.GroupID ≠ t → ¬ IsDescendant db f.toLocal.GroupID t →
          f ∈ db1.files)
      ∧ db1.parts = db.parts := by
  obtain ⟨n, hn⟩ := deleteChildGroups_terminates db hacyc t
  refine ⟨n, fun fuel hfuel => ?_⟩
  have hsome := hn fuel hfuel (reassignFiles db t) (fun g hg => hg)
  cases hdcg : deleteChildGroups fuel t (reassignFiles db t) with
  | none => simp [hdcg] at hsome
  | some r =>
    obtain ⟨db2, log2⟩ := r
    have hrun : deleteGroup fuel db name
        = some (deleteGroupRow db2 t, log2 ++ [t], GroupMsg.deleted) := by
      simp [deleteGroup, hres, hdcg]
    obtain ⟨-, hmem, hgroups, hfiles, hparts, -, -⟩ :=
      deleteGroup_result fuel db name t _ _ _ hres hrun
    have hnot : ∀ x, x ≠ t → ¬ IsDescendant db x t → x ∉ log2 ++ [t] := by
      intro x h1 h2 h3
      rcases (hmem x).mp h3 with h | h
      · exact h1 h
      · exact h2 h
    refine ⟨_, _, hrun, hmem, hgroups, ?_, hfiles, ?_, hparts⟩
    · intro g hg h1 h2
      rw [hgroups]
      exact List.mem_filter.mpr ⟨hg, by simpa using hnot _ h1 h2⟩
    · intro f hf h1 h2
      rw [hfiles]
      refine List.mem_map.mpr ⟨f, hf, ?_⟩
      simp only [moveToRoot, if_neg (hnot _ h1 h2)]

theorem delete_group_frame_witness :
    ∃ n, ∀ fuel, n ≤ fuel → ∃ db1 log,
      deleteGroup fuel dbBooks "Books" = some (db1, log, GroupMsg.deleted)
      ∧ (∀ x, x ∈ log ↔ x = 2 ∨ IsDescendant dbBooks x 2)
      ∧ db1.groups = dbBooks.groups.filter (fun g => decide (g.group_id ∉ log))
      ∧ (∀ g ∈ dbBooks.groups, g.group_id ≠ 2 → ¬ IsDescendant dbBooks g.group_id 2 →
          g ∈ db1.groups)
      ∧ db1.files = dbBooks.files.map
          (fun f => if f.toLocal.GroupID ∈ log then
                      { f with toLocal := { f.toLocal with GroupID := 1 } }
                    else f)
      ∧ (∀ f ∈ dbBooks.files, f.toLocal.GroupID ≠ 2 →
          ¬ IsDescendant dbBooks f.toLocal.GroupID 2 → f ∈ db1.files)
      ∧ db1.parts = dbBooks.parts :=
  delete_group_frame dbBooks "Books" 2 dbBooks_acyclic (by decide)

/-- The loop of `DeleteFileParts` on any list of ids: it handles a first stretch
`pre` of the list, and either the list ends there or the removal of the next id
fails. -/
theorem deleteLoop_prefix (env : Env) (ids : List String) :
    ∀ (db : DB) (dc : Discord) (log : List Effect),
      ∃ pre post r, ids = pre ++ post
        ∧ deleteLoop env ids db dc log
            = ({ db with parts := db.parts.filter (fun r => decide (r.part_id ∉ pre)) },
               { dc with messages := dc.messages.filter (fun m => decide (m.ID ∉ pre)) },
               log ++ pre.flatMap (fun p => [.messageDeleted p, .partRowDeleted p]), r)
        ∧ ((r = .ok () ∧ post = []) ∨ ∃ pk rest, post = pk :: rest ∧ r = .error (.deleteMessage pk)) := by
  induction ids with
  | nil =>
    intro db dc log
    exact ⟨[], [], .ok (), rfl, by simp [deleteLoop], Or.inl ⟨rfl, rfl⟩⟩
  | cons p rest ih =>
    intro db dc log
    cases hdel : ChannelMessageDelete env dc p with
    | none =>
      exact ⟨[], p :: rest, .error (.deleteMessage p), rfl, by simp [deleteLoop, hdel],
        Or.inr ⟨p, rest, rfl, rfl⟩⟩
    | some dc1 =>
      have hsome : (ChannelMessageDelete env dc p).isSome := by simp [hdel]
      have hdc1 := ChannelMessageDelete_eq env dc p hsome
      rw [hdel, Option.some.injEq] at hdc1
      obtain ⟨pre, post, r, hsplit, hrun, hcase⟩ := ih (deletePartRow db p) dc1
        (log ++ [.messageDeleted p, .partRowDeleted p])
      refine ⟨p :: pre, post, r, by rw [hsplit]; rfl, ?_, hcase⟩
      have e1 : ∀ l : List PartRow,
          (l.filter (fun r => !(r.part_id == p))).filter (fun r => decide (r.part_id ∉ pre))
            = l.filter (fun r => decide (r.part_id ∉ p :: pre)) := by
        intro l
        rw [List.filter_filter]
        apply List.filter_congr
        intro r _
        by_cases h : r.part_id = p <;> simp [h]
      have e2 : ∀ l : List Message,
          (l.filter (fun m => !(m.ID == p))).filter (fun m => decide (m.ID ∉ pre))
            = l.filter (fun m => decide (m.ID ∉ p :: pre)) := by
        intro l
        rw [List.filter_filter]
        apply List.filter_congr
        intro m _
        by_cases h : m.ID = p <;> simp [h]
      simp only [deleteLoop, hdel]
      rw [hrun, hdc1]
      simp only [deletePartRow, e1, e2, List.flatMap_cons, List.append_assoc]

/-- C19. Whether `DeleteFileParts` succeeds or stops on a failing removal, and the
primary key of `parts` holding in the starting store: the File rows with another
id and the Part rows of other files are as before; every backend removal it
made, and the removal that failed if one did, is of a part id of the file; and
the backend messages that are not parts of the file are all still there. -/
theorem delete_file_frame (env : Env) (db : DB) (dc : Discord) (fileID : Int)
    (hkey : (db.parts.map (·.part_id)).Nodup) :
    ∃ db1 dc1 log r, DeleteFileParts env db dc fileID = (db1, dc1, log, r)
      ∧ db1.files.filter (fun f => !(f.ID == fileID)) = db.files.filter (fun f => !(f.ID == fileID))
      ∧ db1.parts.filter (fun row => !(row.file_id == fileID))
          = db.parts.filter (fun row => !(row.file_id == fileID))
      ∧ db1.groups = db.groups
      ∧ (∀ p, Effect.messageDeleted p ∈ log → (⟨p, fileID⟩ : PartRow) ∈ db.parts)
      ∧ (∀ p, r = .error (.deleteMessage p) → (⟨p, fileID⟩ : PartRow) ∈ db.parts)
      ∧ (∀ m ∈ dc.messages, (⟨m.ID, fileID⟩ : PartRow) ∉ db.parts → m ∈ dc1.messages) := by
  obtain ⟨pre, post, r, hsplit, hrun, hcase⟩ := deleteLoop_prefix env (GetPartIDs db fileID) db dc []
  have hpre : ∀ p ∈ pre, (⟨p, fileID⟩ : PartRow) ∈ db.parts := by
    intro p hp
    rw [← mem_GetPartIDs, hsplit]
    exact List.mem_append_left _ hp
  have hparts : (db.parts.filter (fun r => decide (r.part_id ∉ pre))).filter
      (fun row => !(row.file_id == fileID)) = db.parts.filter (fun row => !(row.file_id == fileID)) := by
    rw [List.filter_filter]
    apply List.filter_congr
    intro row hrow
    by_cases hf : row.file_id = fileID
    · simp [hf]
    · have : row.part_id ∉ pre := by
        intro hin
        have h1 := hpre _ hin
        have h2 := List.inj_on_of_nodup_map hkey hrow h1 rfl
        rw [h2] at hf
        exact hf rfl
      simp [hf, this]
  have hlog : ∀ p, Effect.messageDeleted p ∈
      pre.flatMap (fun p => [Effect.messageDeleted p, Effect.partRowDeleted p]) → p ∈ pre := by
    intro p hp
    simp only [List.mem_flatMap, List.mem_cons, Effect.messageDeleted.injEq,
      List.mem_singleton, reduceCtorEq, or_false, List.not_mem_nil] at hp
    obtain ⟨q, hq, rfl⟩ := hp
    exact hq
  have hmsgs : ∀ m ∈ dc.messages, (⟨m.ID, fileID⟩ : PartRow) ∉ db.parts →
      m ∈ dc.messages.filter (fun m => decide (m.ID ∉ pre)) := by
    intro m hm hnot
    exact List.mem_filter.mpr ⟨hm, by simpa using fun hin => hnot (hpre _ hin)⟩
  unfold DeleteFileParts
  rw [hrun]
  rcases hcase with ⟨rfl, rfl⟩ | ⟨pk, rest, rfl, rfl⟩
  · refine ⟨_, _, _, _, rfl, ?_, ?_, rfl, ?_, ?_, hmsgs⟩
    · simp only [deleteFileRow, List.filter_filter, Bool.and_self]
    · simpa [deleteFileRow] using hparts
    · intro p hp
      simp only [List.nil_append, List.mem_append, List.mem_singleton, reduceCtorEq,
        or_false] at hp
      exact hpre p (hlog p hp)
    · intro p hp
      simp at hp
  · refine ⟨_, _, _, _, rfl, rfl, hparts, rfl,
      fun p hp => hpre p (hlog p (by simpa using hp)), ?_, hmsgs⟩
    intro p hp
    simp only [Except.error.injEq, Err.deleteMessage.injEq] at hp
    subst hp
    rw [← mem_GetPartIDs, hsplit]
    simp

theorem delete_file_frame_witness :
    ∃ db1 dc1 log r, DeleteFileParts envFailB dbThreeParts dcThreeParts 1 = (db1, dc1, log, r)
      ∧ db1.files.filter (fun f => !(f.ID == 1)) = dbThreeParts.files.filter (fun f => !(f.ID == 1))
      ∧ db1.parts.filter (fun row => !(row.file_id == 1))
          = dbThreeParts.parts.filter (fun row => !(row.file_id == 1))
      ∧ db1.groups = dbThreeParts.groups
      ∧ (∀ p, Effect.messageDeleted p ∈ log → (⟨p, 1⟩ : PartRow) ∈ dbThreeParts.parts)
      ∧ (∀ p, r = .error (.deleteMessage p) → (⟨p, 1⟩ : PartRow) ∈ dbThreeParts.parts)
      ∧ (∀ m ∈ dcThreeParts.messages, (⟨m.ID, 1⟩ : PartRow) ∉ dbThreeParts.parts →
          m ∈ dc1.messages) :=
  delete_file_frame envFailB dbThreeParts dcThreeParts 1 (by decide)

/-! ## A larger bound does not change a result -/

theorem deleteChildLoop_mono (r1 r2 : Int → DB → Option (DB × List Int))
    (h : ∀ c db r, r1 c db = some r → r2 c db = some r) (cs : List Int) :
    ∀ db log r, deleteChildLoop r1 cs db log = some r → deleteChildLoop r2 cs db log = some r := by
  induction cs with
  | nil => intro db log r hr; simpa [deleteChildLoop] using hr
  | cons c rest ih =>
    intro db log r hr
    simp only [deleteChildLoop] at hr ⊢
    cases h1 : r1 c db with
    | none => simp [h1] at hr
    | some x =>
      simp only [h1] at hr
      simp only [h c db x h1]
      exact ih _ _ _ hr

theorem deleteChildGroups_succ (fuel : Nat) :
    ∀ p db r, deleteChildGroups fuel p db = some r → deleteChildGroups (fuel + 1) p db = some r := by
  induction fuel with
  | zero => intro p db r h; simp [deleteChildGroups] at h
  | succ fuel ih =>
    intro p db r h
    simp only [deleteChildGroups] at h ⊢
    exact deleteChildLoop_mono _ _ ih _ _ _ _ h

theorem deleteChildGroups_mono (f1 f2 : Nat) (hle : f1 ≤ f2) (p : Int) (db : DB)
    (r : DB × List Int) (h : deleteChildGroups f1 p db = some r) :
    deleteChildGroups f2 p db = some r := by
  induction hle with
  | refl => exact h
  | step _ ih => exact deleteChildGroups_succ _ p db r ih

theorem deleteGroup_mono (f1 f2 : Nat) (hle : f1 ≤ f2) (db : DB) (name : String)
    (r : DB × List Int × GroupMsg) (h : deleteGroup f1 db name = some r) :
    deleteGroup f2 db name = some r := by
  unfold deleteGroup at h ⊢
  cases hf : fetchGroupIDByName db name with
  | none => simpa [hf] using h
  | some t =>
    simp only [hf] at h ⊢
    cases h1 : deleteChildGroups f1 t (reassignFiles db t) with
    | none => simp [h1] at h
    | some x =>
      rw [deleteChildGroups_mono f1 f2 hle t _ x h1]
      simpa [h1] using h

theorem applyOp_mono (f1 f2 : Nat) (hle : f1 ≤ f2) (db : DB) (op : GroupOp) (db1 : DB)
    (h : applyOp f1 db op = some db1) : applyOp f2 db op = some db1 := by
  cases op with
  | init => exact h
  | create name parentGroup => exact h
  | delete name =>
    simp only [applyOp, Option.map_eq_some'] at h ⊢
    obtain ⟨r, hr, e⟩ := h
    exact ⟨r, deleteGroup_mono f1 f2 hle db name r hr, e⟩

theorem runOps_mono (f1 f2 : Nat) (hle : f1 ≤ f2) (ops : List GroupOp) :
    ∀ db db1, runOps f1 ops db = some db1 → runOps f2 ops db = some db1 := by
  induction ops with
  | nil => intro db db1 h; exact h
  | cons op ops ih =>
    intro db db1 h
    simp only [runOps] at h ⊢
    cases h1 : applyOp f1 db op with
    | none => simp [h1] at h
    | some db2 =>
      simp only [h1] at h
      simp only [applyOp_mono f1 f2 hle db op db2 h1]
      exact ih db2 db1 h

theorem applyOp_terminates (db : DB) (hacyc : Acyclic db) (op : GroupOp) :
    ∃ n db1, applyOp n db op = some db1 := by
  cases op with
  | init => exact ⟨0, _, rfl⟩
  | create name parentGroup => exact ⟨0, _, rfl⟩
  | delete name =>
    cases hf : fetchGroupIDByName db name with
    | none => exact ⟨0, db, by simp [applyOp, deleteGroup, hf]⟩
    | some t =>
      obtain ⟨n, hn⟩ := deleteChildGroups_terminates db hacyc t
      have hsome := hn n (le_refl _) (reassignFiles db t) (fun g hg => hg)
      cases h1 : deleteChildGroups n t (reassignFiles db t) with
      | none => simp [h1] at hsome
      | some x => exact ⟨n, deleteGroupRow x.1 t, by simp [applyOp, deleteGroup, hf, h1]⟩

/-- No sequence of group steps from a store with `ParentBelow` fails to return:
from some bound on, `runOps` gives a store. -/
theorem runOps_terminates (ops : List GroupOp) :
    ∀ db, ParentBelow db → ∃ n db1, ∀ fuel, n ≤ fuel → runOps fuel ops db = some db1 := by
  induction ops with
  | nil => intro db _; exact ⟨0, db, fun _ _ => rfl⟩
  | cons op ops ih =>
    intro db h
    obtain ⟨n1, db2, h1⟩ := applyOp_terminates db (acyclic_of_parentBelow db h) op
    obtain ⟨n2, db1, h2⟩ := ih db2 (parentBelow_applyOp n1 db db2 op h h1)
    refine ⟨max n1 n2, db1, fun fuel hfuel => ?_⟩
    simp only [runOps, applyOp_mono n1 fuel (le_trans (le_max_left _ _) hfuel) db op db2 h1]
    exact h2 fuel (le_trans (le_max_right _ _) hfuel)

end Disvault
